import Mathlib

/-!
# Vectorized tasks of the DAPHNE runtime (`src/runtime/local/vectorized/Tasks.h`)

A shallow embedding of `Task`, `EOFTask` and `SingleOpTask` and of the batch loop of
`SingleOpTask::execute`, together with the parts of `CompiledPipelineTask` that `Tasks.h`
only declares (partition builder and output combiner), which are modelled from the
specification.

* `uint64_t` values are natural numbers; `r + _bsize` and `r += _bsize` are taken modulo
  `UINT64 = 2 ^ 64`, as in the C++ code.
* The `for` loop of `SingleOpTask::execute` is `SingleOpTask.run`: a fuel-indexed iteration
  of the loop body `SingleOpTask.step`; `none` means that the loop is still running when
  the fuel is used up.
* Memory is explicit: `Mem ρ` maps a buffer and an absolute row index to a row of type `ρ`;
  a `DenseMatrix` is a window on a buffer, so that views are zero-copy and a write through
  a view is a write to the underlying matrix.
* The function pointer `_func` is an arbitrary memory transformer that receives the three
  views.  Every call is recorded in a trace (`Call`), which is what the statements about
  batches, slice requests and the number of invocations talk about.
-/

namespace Daphne

/-! ## Data model -/

/-- The modulus of `uint64_t` arithmetic. -/
def UINT64 : Nat := 2 ^ 64

/-- Contents of the value arrays: buffer, absolute row index in that buffer, row. -/
abbrev Mem (ρ : Type) := Nat → Nat → ρ

/-- Modelled from the spec: `DenseMatrix` (the storage layer, `DenseMatrix.h`, is not part of
the sources at hand).  A matrix object is a window of `numRows` rows, starting at row
`rowOff`, on the value array `buf`; a view shares `buf` with the matrix it was cut from
("zero-copy row-range view"). -/
structure DenseMatrix where
  buf : Nat
  rowOff : Nat
  numRows : Nat
  numCols : Nat
deriving DecidableEq, Repr

/-- Modelled from the spec: `DenseMatrix::getNumRows` of the storage layer. -/
def DenseMatrix.getNumRows (m : DenseMatrix) : Nat := m.numRows

/-- Modelled from the spec: `DenseMatrix::slice(rl, ru)` of the storage layer, the zero-copy
row-range view `[rl, ru)` of the receiver: same buffer, window moved by `rl`, `ru - rl` rows
(no row when `ru ≤ rl`). -/
def DenseMatrix.slice (m : DenseMatrix) (rl ru : Nat) : DenseMatrix :=
  { buf := m.buf, rowOff := m.rowOff + rl, numRows := ru - rl, numCols := m.numCols }

/-- The slice request `slice(rl, ru)` is in range: the requested row range is not empty and
lies inside the receiver. -/
abbrev DenseMatrix.sliceInRange (m : DenseMatrix) (rl ru : Nat) : Prop :=
  rl < ru ∧ ru ≤ m.numRows

/-- Row `i` (relative to the window) of matrix `m` in memory `h`. -/
def DenseMatrix.row {ρ : Type} (m : DenseMatrix) (h : Mem ρ) (i : Nat) : ρ :=
  h m.buf (m.rowOff + i)

/-- The memory location `(b, j)` belongs to the window of `m`. -/
abbrev DenseMatrix.covers (m : DenseMatrix) (b j : Nat) : Prop :=
  b = m.buf ∧ m.rowOff ≤ j ∧ j < m.rowOff + m.numRows

/-- One invocation `_func(lres, linput1, linput2)` of the loop body, with the batch `[r, r2)`
it was made for. -/
structure Call where
  r : Nat
  r2 : Nat
  lres : DenseMatrix
  linput1 : DenseMatrix
  linput2 : DenseMatrix
deriving DecidableEq, Repr

/-- The type of `_func`: `void (*)(DenseMatrix*, DenseMatrix*, DenseMatrix*)`, a procedure
with side effects on memory. -/
abbrev Func (ρ : Type) := Mem ρ → DenseMatrix → DenseMatrix → DenseMatrix → Mem ρ

/-- The fields of `SingleOpTask<VT>`. -/
structure SingleOpTask (ρ : Type) where
  _func : Func ρ
  _res : DenseMatrix
  _input1 : DenseMatrix
  _input2 : DenseMatrix
  _rl : Nat
  _ru : Nat
  _bsize : Nat

/-- The seven-argument constructor of `SingleOpTask`: every argument is stored as it is, none
is checked.  (The three-argument constructor delegates to it, with null pointers for the
function and the matrices.) -/
def SingleOpTask.new {ρ : Type} (func : Func ρ) (res input1 input2 : DenseMatrix)
    (rl ru bsize : Nat) : SingleOpTask ρ :=
  { _func := func, _res := res, _input1 := input1, _input2 := input2,
    _rl := rl, _ru := ru, _bsize := bsize }

/-- The default constructor `SingleOpTask() = default`: `_rl{}`, `_ru{}` and `_bsize{}` are
zero; the pointer fields have no initialiser, their (indeterminate) values are the
arguments. -/
def SingleOpTask.default {ρ : Type} (func : Func ρ) (res input1 input2 : DenseMatrix) :
    SingleOpTask ρ :=
  { _func := func, _res := res, _input1 := input1, _input2 := input2,
    _rl := 0, _ru := 0, _bsize := 0 }

/-- What a task can observe and change: memory and the trace of function invocations. -/
structure ProgState (ρ : Type) where
  mem : Mem ρ
  calls : List Call

/-- State of the `for` loop of `SingleOpTask::execute`: the loop variable `r` and the
program state. -/
structure LoopState (ρ : Type) where
  r : Nat
  mem : Mem ρ
  calls : List Call

/-! ## `SingleOpTask::execute` -/

/-- The views of one loop iteration at loop variable `r` (lines 83 to 87):
`r2 = std::min(r+_bsize, _ru)`, the result and the first input are sliced, the second input
is passed as it is when it has one row. -/
def SingleOpTask.batch {ρ : Type} (t : SingleOpTask ρ) (r : Nat) : Call :=
  let r2 := min ((r + t._bsize) % UINT64) t._ru
  { r := r
    r2 := r2
    lres := t._res.slice r r2
    linput1 := t._input1.slice r r2
    linput2 := if t._input2.getNumRows = 1 then t._input2 else t._input2.slice r r2 }

/-- One iteration of the loop: the body (lines 83 to 89) followed by `r += _bsize`. -/
def SingleOpTask.step {ρ : Type} (t : SingleOpTask ρ) (s : LoopState ρ) : LoopState ρ :=
  let c := t.batch s.r
  { r := (s.r + t._bsize) % UINT64
    mem := t._func s.mem c.lres c.linput1 c.linput2
    calls := s.calls ++ [c] }

/-- The loop `for (...; r < _ru; r += _bsize)`, with fuel: `some s` when the loop is left in
state `s`, `none` when the condition still holds after `fuel` iterations. -/
def SingleOpTask.run {ρ : Type} (t : SingleOpTask ρ) : Nat → LoopState ρ → Option (LoopState ρ)
  | 0, s => if s.r < t._ru then none else some s
  | fuel + 1, s => if s.r < t._ru then t.run fuel (t.step s) else some s

/-- The method `SingleOpTask::execute`: the loop started at `r = _rl`. -/
def SingleOpTask.execute {ρ : Type} (t : SingleOpTask ρ) (fuel : Nat) (st : ProgState ρ) :
    Option (ProgState ρ) :=
  (t.run fuel { r := t._rl, mem := st.mem, calls := st.calls }).map
    (fun s => { mem := s.mem, calls := s.calls })

/-- The task with the same function and matrices and another row range. -/
def SingleOpTask.withRange {ρ : Type} (t : SingleOpTask ρ) (rl ru : Nat) : SingleOpTask ρ :=
  { t with _rl := rl, _ru := ru }

/-- The task with the same function, matrices and row range and another batch size. -/
def SingleOpTask.withBsize {ρ : Type} (t : SingleOpTask ρ) (bsize : Nat) : SingleOpTask ρ :=
  { t with _bsize := bsize }

/-- The tasks of a family (one per row range) executed one after the other. -/
def executeAll {ρ : Type} : List (SingleOpTask ρ) → Nat → ProgState ρ → Option (ProgState ρ)
  | [], _, st => some st
  | t :: ts, fuel, st =>
    match t.execute fuel st with
    | none => none
    | some st1 => executeAll ts fuel st1

/-! ## `Task` and `EOFTask` -/

/-- The class hierarchy below `Task` as far as it has a body in `Tasks.h`. -/
inductive Task (ρ : Type) where
  | eof : Task ρ
  | singleOp : SingleOpTask ρ → Task ρ

/-- The method `EOFTask::execute`, whose body is empty. -/
def EOFTask.execute {ρ : Type} (st : ProgState ρ) : ProgState ρ := st

/-- The virtual call `Task::execute`. -/
def Task.execute {ρ : Type} : Task ρ → Nat → ProgState ρ → Option (ProgState ρ)
  | Task.eof, _, st => some (EOFTask.execute st)
  | Task.singleOp t, fuel, st => t.execute fuel st

/-! ## Vocabulary of the statements -/

/-- Number of batches of an ideal run: `ceil ((_ru - _rl) / _bsize)`. -/
def SingleOpTask.ncalls {ρ : Type} (t : SingleOpTask ρ) : Nat :=
  (t._ru - t._rl + t._bsize - 1) / t._bsize

/-- The function writes nothing but the rows of the result view it is handed. -/
def WritesOnlyResult {ρ : Type} (f : Func ρ) : Prop :=
  ∀ (h : Mem ρ) (lres l1 l2 : DenseMatrix) (b j : Nat),
    ¬ lres.covers b j → f h lres l1 l2 b j = h b j

/-- The function writes row `k` of its result view from row `k` of its input views, by `g`;
of a second input view with a single row it takes that row for every `k` (broadcast). -/
def RowWise {ρ : Type} (g : ρ → ρ → ρ) (f : Func ρ) : Prop :=
  ∀ (h : Mem ρ) (lres l1 l2 : DenseMatrix) (k : Nat), k < lres.numRows →
    lres.row (f h lres l1 l2) k =
      g (l1.row h k) (l2.row h (if l2.getNumRows = 1 then 0 else k))

/-- A function that computes its result view row by row with `g`. -/
def rowwiseFunc {ρ : Type} (g : ρ → ρ → ρ) : Func ρ :=
  fun h lres l1 l2 b j =>
    if lres.covers b j then
      g (l1.row h (j - lres.rowOff))
        (l2.row h (if l2.getNumRows = 1 then 0 else j - lres.rowOff))
    else h b j

/-- The batches `cs` are an ordered tiling of `[rl, ru)`: the first starts at `rl`, each
next one starts where the one before ended and at a larger row, the last ends at `ru`, and
every row of `[rl, ru)` lies in exactly one batch. -/
def OrderedTiling (rl ru : Nat) (cs : List Call) : Prop :=
  (∀ c : Call, cs.head? = some c → c.r = rl) ∧
  (∀ (k : Nat) (c d : Call), cs[k]? = some c → cs[k + 1]? = some d → d.r = c.r2 ∧ c.r < d.r) ∧
  (∀ c : Call, cs.getLast? = some c → c.r2 = ru) ∧
  (∀ i : Nat, rl ≤ i → i < ru → ∃! k : Nat, ∃ c : Call, cs[k]? = some c ∧ c.r ≤ i ∧ i < c.r2)

/-- The bounds of one batch of task `t`, and the range condition of its slice requests when
the sliced matrices have at least `_ru` rows. -/
def BatchBounds {ρ : Type} (t : SingleOpTask ρ) (c : Call) : Prop :=
  t._rl ≤ c.r ∧ c.r < c.r2 ∧ c.r2 ≤ t._ru ∧ c.r2 - c.r ≤ min t._bsize (t._ru - t._rl) ∧
  c.lres = t._res.slice c.r c.r2 ∧ c.linput1 = t._input1.slice c.r c.r2 ∧
  (t._input2.getNumRows ≠ 1 → c.linput2 = t._input2.slice c.r c.r2) ∧
  (t._ru ≤ t._res.numRows → t._res.sliceInRange c.r c.r2) ∧
  (t._ru ≤ t._input1.numRows → t._input1.sliceInRange c.r c.r2) ∧
  (t._input2.getNumRows ≠ 1 → t._ru ≤ t._input2.numRows → t._input2.sliceInRange c.r c.r2)

/-- Row `i` of the result as the row-wise function `g` defines it from the inputs in memory
`h`: row `i` of the first input and row `i` (the only row, when there is one) of the
second. -/
def expectedRow {ρ : Type} (g : ρ → ρ → ρ) (t : SingleOpTask ρ) (h : Mem ρ) (i : Nat) : ρ :=
  g (t._input1.row h i) (t._input2.row h (if t._input2.getNumRows = 1 then 0 else i))

/-- The memory after one call of `_func` on the single batch `[_rl, _ru)`. -/
def SingleOpTask.singleBatch {ρ : Type} (t : SingleOpTask ρ) (h : Mem ρ) : Mem ρ :=
  t._func h (t._res.slice t._rl t._ru) (t._input1.slice t._rl t._ru)
    (if t._input2.getNumRows = 1 then t._input2 else t._input2.slice t._rl t._ru)

/-! ## `CompiledPipelineTask`: the parts that `Tasks.h` declares without a body -/

/-- Modelled from the spec: the split policy of an input (`VectorSplit` comes from the
compiler, `ir/daphneir/Daphne.h`, which is not part of the sources at hand): row-sliced or
whole. -/
inductive VectorSplit where
  | rowSliced : VectorSplit
  | whole : VectorSplit
deriving DecidableEq, Repr

/-- Modelled from the spec: `CompiledPipelineTask::createFuncInputs` (declared in `Tasks.h`,
no body in the sources at hand), the partition builder of section 4.2: an input whose policy
is whole, or that has exactly one row, is passed unmodified; otherwise the zero-copy
row-range view `[rowStart, rowEnd)` of it is passed. -/
def CompiledPipelineTask.createFuncInputs (inputs : List DenseMatrix)
    (splits : List VectorSplit) (rowStart rowEnd : Nat) : List DenseMatrix :=
  List.zipWith
    (fun inp sp =>
      if sp = VectorSplit.whole ∨ inp.getNumRows = 1 then inp else inp.slice rowStart rowEnd)
    inputs splits

/-- Modelled from the spec: a matrix of the declared total output shape of a pipeline, with
exact (integer) cells: the shared result and the local output of a batch under the
accumulate policy, which every batch writes in full. -/
abbrev OutMat (m n : Nat) := Matrix (Fin m) (Fin n) ℤ

/-- Modelled from the spec: `CompiledPipelineTask::accumulateOutputs` (declared in `Tasks.h`,
no body in the sources at hand), the output combiner of section 4.3 for the accumulate
policy, between taking and releasing the lock: a null shared result is allocated first (a
zero matrix of the declared shape), then the local output of the batch is added to it
cell by cell. -/
def CompiledPipelineTask.accumulateOutputs {m n : Nat} (slot : Option (OutMat m n))
    (lres : OutMat m n) : Option (OutMat m n) :=
  match slot with
  | none => some (0 + lres)
  | some res => some (res + lres)

/-- Modelled from the spec: the local outputs of a set of batches merged into the shared
result slot one after the other, in the order of the list. -/
def CompiledPipelineTask.mergeAll {m n : Nat} (slot : Option (OutMat m n))
    (locals : List (OutMat m n)) : Option (OutMat m n) :=
  locals.foldl CompiledPipelineTask.accumulateOutputs slot

/-- Modelled from the spec: the batches of `CompiledPipelineTask::execute` (declared in
`Tasks.h`, no body in the sources at hand), section 4.4 step 1 and section 4.2: `r` goes
from `rl` to `ru` in steps of `bsize`, the batch at `r` is `[r, min (r + bsize) ru)`.  The
first argument bounds the number of iterations; `ru - rl` is enough for `bsize > 0`, which
the spec requires. -/
def CompiledPipelineTask.batches (bsize ru : Nat) : Nat → Nat → List (Nat × Nat)
  | 0, _ => []
  | fuel + 1, r =>
    if r < ru then (r, min (r + bsize) ru) :: CompiledPipelineTask.batches bsize ru fuel (r + bsize)
    else []

/-- Modelled from the spec: `CompiledPipelineTask::execute` (declared in `Tasks.h`, no body
in the sources at hand) for one output with the accumulate policy, section 4.4: for every
batch the compiled function is invoked and its local output is combined into the shared
result.  `func r r2` is the local output that the compiled function produces on the batch
inputs of `[r, r2)`. -/
def CompiledPipelineTask.execute {m n : Nat} (func : Nat → Nat → OutMat m n)
    (rl ru bsize : Nat) (slot : Option (OutMat m n)) : Option (OutMat m n) :=
  CompiledPipelineTask.mergeAll slot
    ((CompiledPipelineTask.batches bsize ru (ru - rl) rl).map (fun b => func b.1 b.2))

/-- The local output of a batch is the sum of what its rows contribute: the output for
`[a, c)` is the sum of the outputs for `[a, b)` and `[b, c)`. -/
def RowAdditive {m n : Nat} (func : Nat → Nat → OutMat m n) : Prop :=
  ∀ a b c : Nat, a ≤ b → b ≤ c → func a c = func a b + func b c

/-! ## Concrete tasks -/

/-- Example memory: row `j` of buffer `1` holds `j`, row `j` of buffer `2` holds `10 * j`,
every other row holds `0`. -/
def exMem : Mem Int :=
  fun b j => if b = 1 then (j : Int) else if b = 2 then 10 * (j : Int) else 0

/-- The compiled function of scenario A: `output = input1 + input2`, row by row. -/
def addFunc : Func Int := rowwiseFunc (fun x y => x + y)

/-- Scenario A: result and inputs with ten rows, batch size `5`; the family has the row
ranges `[0, 5)` and `[5, 10)`. -/
def scenarioA : SingleOpTask Int :=
  SingleOpTask.new addFunc ⟨0, 0, 10, 1⟩ ⟨1, 0, 10, 1⟩ ⟨2, 0, 10, 1⟩ 0 10 5

/-- Scenario D: a second input of shape `1×4`, rows `[0, 100)`, batch size `10`. -/
def scenarioD : SingleOpTask Int :=
  SingleOpTask.new addFunc ⟨0, 0, 100, 4⟩ ⟨1, 0, 100, 4⟩ ⟨2, 0, 1, 4⟩ 0 100 10

/-- Scenario D with the single-row matrix as the first input. -/
def scenarioD1 : SingleOpTask Int :=
  SingleOpTask.new addFunc ⟨0, 0, 100, 4⟩ ⟨1, 0, 1, 4⟩ ⟨2, 0, 100, 4⟩ 0 100 10

/-- Rows `[5, 10)` of ten-row matrices with the largest batch size, `2 ^ 64 - 1`. -/
def wrapTask : SingleOpTask Int :=
  SingleOpTask.new addFunc ⟨0, 0, 10, 1⟩ ⟨1, 0, 10, 1⟩ ⟨2, 0, 10, 1⟩ 5 10 (2 ^ 64 - 1)

/-- Rows `[0, 2 ^ 64 - 1)` with batch size `2 ^ 63`. -/
def cycleTask : SingleOpTask Int :=
  SingleOpTask.new addFunc ⟨0, 0, 2 ^ 64 - 1, 1⟩ ⟨1, 0, 2 ^ 64 - 1, 1⟩ ⟨2, 0, 2 ^ 64 - 1, 1⟩
    0 (2 ^ 64 - 1) (2 ^ 63)

/-- A row-wise function that copies its first input: `output = input1`. -/
def copyFunc : Func Int := rowwiseFunc (fun x _ => x)

/-- Result and first input are overlapping windows of one buffer: the result is rows
`1 .. 10` and the first input rows `0 .. 9` of buffer `1`; rows `[0, 10)`, batch size `5`. -/
def aliasTask : SingleOpTask Int :=
  SingleOpTask.new copyFunc ⟨1, 1, 10, 1⟩ ⟨1, 0, 10, 1⟩ ⟨2, 0, 10, 1⟩ 0 10 5

/-- A function that writes each row of its result view as `input1 + input2` of the same-index
rows, and that also overwrites, with `-1`, the row just before its result view. -/
def overrunFunc : Func Int :=
  fun h lres l1 l2 b j =>
    if lres.covers b j then
      l1.row h (j - lres.rowOff) + l2.row h (if l2.getNumRows = 1 then 0 else j - lres.rowOff)
    else if b = lres.buf ∧ j + 1 = lres.rowOff then -1
    else h b j

/-- Scenario A with `overrunFunc` as its function. -/
def overrunTask : SingleOpTask Int :=
  SingleOpTask.new overrunFunc ⟨0, 0, 10, 1⟩ ⟨1, 0, 10, 1⟩ ⟨2, 0, 10, 1⟩ 0 10 5

/-- A compiled function whose local output is `1` in every cell for every batch. -/
def onesFunc : Nat → Nat → OutMat 2 2 := fun _ _ _ _ => 1

/-- A compiled function to which every row of the batch contributes `1` per cell. -/
def countFunc : Nat → Nat → OutMat 2 2 := fun r r2 _ _ => (r2 : ℤ) - (r : ℤ)

/-! # Proofs -/

variable {ρ : Type}

/-! ## The loop and its iterations -/

theorem run_iterate (t : SingleOpTask ρ) : ∀ (n : Nat) (s : LoopState ρ) (fuel : Nat),
    (∀ k, k < n → ((t.step)^[k] s).r < t._ru) → ¬ ((t.step)^[n] s).r < t._ru → n ≤ fuel →
    t.run fuel s = some ((t.step)^[n] s) := by
  intro n
  induction n with
  | zero =>
    intro s fuel _ hn _
    have hs : ¬ s.r < t._ru := by simpa using hn
    cases fuel <;> simp [SingleOpTask.run, hs]
  | succ n ih =>
    intro s fuel hlt hn hfuel
    have h0 : s.r < t._ru := by simpa using hlt 0 (Nat.succ_pos n)
    obtain ⟨f, rfl⟩ : ∃ f, fuel = f + 1 := ⟨fuel - 1, by omega⟩
    have hstep : t.run (f + 1) s = t.run f (t.step s) := by simp [SingleOpTask.run, h0]
    rw [hstep, Function.iterate_succ_apply]
    apply ih
    · intro k hk
      have := hlt (k + 1) (by omega)
      rwa [Function.iterate_succ_apply] at this
    · rwa [Function.iterate_succ_apply] at hn
    · omega

theorem run_none_of_forall (t : SingleOpTask ρ) : ∀ (fuel : Nat) (s : LoopState ρ),
    (∀ k, k ≤ fuel → ((t.step)^[k] s).r < t._ru) → t.run fuel s = none := by
  intro fuel
  induction fuel with
  | zero =>
    intro s h
    have h0 : s.r < t._ru := by simpa using h 0 (Nat.le_refl 0)
    simp [SingleOpTask.run, h0]
  | succ f ih =>
    intro s h
    have h0 : s.r < t._ru := by simpa using h 0 (Nat.zero_le _)
    have hstep : t.run (f + 1) s = t.run f (t.step s) := by simp [SingleOpTask.run, h0]
    rw [hstep]
    apply ih
    intro k hk
    have := h (k + 1) (by omega)
    rwa [Function.iterate_succ_apply] at this

theorem run_some_iterate (t : SingleOpTask ρ) : ∀ (fuel : Nat) (s s1 : LoopState ρ),
    t.run fuel s = some s1 →
    ∃ n, n ≤ fuel ∧ s1 = (t.step)^[n] s ∧ (∀ k, k < n → ((t.step)^[k] s).r < t._ru) ∧
      ¬ s1.r < t._ru := by
  intro fuel
  induction fuel with
  | zero =>
    intro s s1 h
    by_cases h0 : s.r < t._ru
    · simp [SingleOpTask.run, h0] at h
    · simp [SingleOpTask.run, h0] at h
      subst h
      exact ⟨0, Nat.le_refl 0, rfl, fun k hk => absurd hk (Nat.not_lt_zero k), h0⟩
  | succ f ih =>
    intro s s1 h
    by_cases h0 : s.r < t._ru
    · have hstep : t.run (f + 1) s = t.run f (t.step s) := by simp [SingleOpTask.run, h0]
      rw [hstep] at h
      obtain ⟨n, hn, heq, hlt, hex⟩ := ih (t.step s) s1 h
      refine ⟨n + 1, by omega, ?_, ?_, hex⟩
      · rw [Function.iterate_succ_apply]; exact heq
      · intro k hk
        cases k with
        | zero => simpa using h0
        | succ k =>
          rw [Function.iterate_succ_apply]
          exact hlt k (by omega)
    · simp [SingleOpTask.run, h0] at h
      subst h
      exact ⟨0, Nat.zero_le _, rfl, fun k hk => absurd hk (Nat.not_lt_zero k), h0⟩

theorem iterate_calls (t : SingleOpTask ρ) (s : LoopState ρ) : ∀ k : Nat,
    ((t.step)^[k] s).calls =
      s.calls ++ (List.range k).map (fun j => t.batch ((t.step)^[j] s).r) := by
  intro k
  induction k with
  | zero => simp
  | succ k ih =>
    rw [Function.iterate_succ_apply', List.range_succ, List.map_append]
    simp [SingleOpTask.step, ih]

theorem iterate_mem_succ (t : SingleOpTask ρ) (s : LoopState ρ) (k : Nat) :
    ((t.step)^[k + 1] s).mem =
      t._func ((t.step)^[k] s).mem (t.batch ((t.step)^[k] s).r).lres
        (t.batch ((t.step)^[k] s).r).linput1 (t.batch ((t.step)^[k] s).r).linput2 := by
  rw [Function.iterate_succ_apply']
  rfl

theorem iterate_r_succ (t : SingleOpTask ρ) (s : LoopState ρ) (k : Nat) :
    ((t.step)^[k + 1] s).r = (((t.step)^[k] s).r + t._bsize) % UINT64 := by
  rw [Function.iterate_succ_apply']
  rfl

theorem iterate_r_noWrap (t : SingleOpTask ρ) (s : LoopState ρ)
    (hnw : t._ru + t._bsize ≤ UINT64) : ∀ k : Nat,
    (∀ j, j < k → s.r + j * t._bsize < t._ru) →
    ((t.step)^[k] s).r = s.r + k * t._bsize := by
  intro k
  induction k with
  | zero => intro _; simp
  | succ k ih =>
    intro h
    have hk := ih (fun j hj => h j (by omega))
    have hlt := h k (Nat.lt_succ_self k)
    rw [iterate_r_succ, hk, Nat.succ_mul]
    rw [Nat.mod_eq_of_lt (by omega)]
    omega

theorem lt_ncalls_iff (t : SingleOpTask ρ) (hb : 0 < t._bsize) (hle : t._rl ≤ t._ru) (k : Nat) :
    k < t.ncalls ↔ t._rl + k * t._bsize < t._ru := by
  unfold SingleOpTask.ncalls
  rw [Nat.lt_iff_add_one_le, Nat.le_div_iff_mul_le hb, Nat.succ_mul]
  omega

/-! ## Runs without wrap-around -/

theorem iterate_r_of_le_ncalls (t : SingleOpTask ρ) (hb : 0 < t._bsize) (hle : t._rl ≤ t._ru)
    (hnw : t._ru + t._bsize ≤ UINT64) (m : Mem ρ) (cs : List Call) (k : Nat)
    (hk : k ≤ t.ncalls) :
    ((t.step)^[k] { r := t._rl, mem := m, calls := cs }).r = t._rl + k * t._bsize := by
  apply iterate_r_noWrap t _ hnw
  intro j hj
  exact (lt_ncalls_iff t hb hle j).1 (by omega)

theorem run_noWrap (t : SingleOpTask ρ) (hb : 0 < t._bsize) (hle : t._rl ≤ t._ru)
    (hnw : t._ru + t._bsize ≤ UINT64) (m : Mem ρ) (cs : List Call) (fuel : Nat)
    (hfuel : t.ncalls ≤ fuel) :
    t.run fuel { r := t._rl, mem := m, calls := cs } =
      some ((t.step)^[t.ncalls] { r := t._rl, mem := m, calls := cs }) := by
  apply run_iterate t t.ncalls _ fuel _ _ hfuel
  · intro k hk
    rw [iterate_r_of_le_ncalls t hb hle hnw m cs k (by omega)]
    exact (lt_ncalls_iff t hb hle k).1 hk
  · rw [iterate_r_of_le_ncalls t hb hle hnw m cs _ (Nat.le_refl _)]
    intro h
    exact absurd ((lt_ncalls_iff t hb hle _).2 h) (Nat.lt_irrefl _)

theorem calls_noWrap (t : SingleOpTask ρ) (hb : 0 < t._bsize) (hle : t._rl ≤ t._ru)
    (hnw : t._ru + t._bsize ≤ UINT64) (m : Mem ρ) (cs : List Call) (k : Nat)
    (hk : k ≤ t.ncalls) :
    ((t.step)^[k] { r := t._rl, mem := m, calls := cs }).calls =
      cs ++ (List.range k).map (fun j => t.batch (t._rl + j * t._bsize)) := by
  rw [iterate_calls]
  congr 1
  apply List.map_congr_left
  intro j hj
  rw [iterate_r_of_le_ncalls t hb hle hnw m cs j (by have := List.mem_range.1 hj; omega)]

theorem execute_noWrap (t : SingleOpTask ρ) (hb : 0 < t._bsize) (hle : t._rl ≤ t._ru)
    (hnw : t._ru + t._bsize ≤ UINT64) (st : ProgState ρ) (fuel : Nat)
    (hfuel : t.ncalls ≤ fuel) :
    t.execute fuel st =
      some { mem := ((t.step)^[t.ncalls] { r := t._rl, mem := st.mem, calls := st.calls }).mem
             calls := st.calls ++
               (List.range t.ncalls).map (fun j => t.batch (t._rl + j * t._bsize)) } := by
  unfold SingleOpTask.execute
  rw [run_noWrap t hb hle hnw st.mem st.calls fuel hfuel]
  simp [calls_noWrap t hb hle hnw st.mem st.calls t.ncalls (Nat.le_refl _)]

theorem batch_r (t : SingleOpTask ρ) (r : Nat) : (t.batch r).r = r := rfl

theorem batch_r2_noWrap (t : SingleOpTask ρ) (hnw : t._ru + t._bsize ≤ UINT64) (r : Nat)
    (hr : r < t._ru) : (t.batch r).r2 = min (r + t._bsize) t._ru := by
  show min ((r + t._bsize) % UINT64) t._ru = _
  rw [Nat.mod_eq_of_lt (by omega)]

theorem getElem?_idealCalls (t : SingleOpTask ρ) (k : Nat) (c : Call)
    (h : ((List.range t.ncalls).map (fun j => t.batch (t._rl + j * t._bsize)))[k]? = some c) :
    k < t.ncalls ∧ c = t.batch (t._rl + k * t._bsize) := by
  rw [List.getElem?_map] at h
  by_cases hk : k < t.ncalls
  · rw [List.getElem?_range hk] at h
    simp at h
    exact ⟨hk, h.symm⟩
  · rw [List.getElem?_eq_none (by simpa using hk)] at h
    simp at h

theorem getElem?_idealCalls_of_lt (t : SingleOpTask ρ) (k : Nat) (hk : k < t.ncalls) :
    ((List.range t.ncalls).map (fun j => t.batch (t._rl + j * t._bsize)))[k]? =
      some (t.batch (t._rl + k * t._bsize)) := by
  rw [List.getElem?_map, List.getElem?_range hk]
  rfl

theorem batchBounds_noWrap (t : SingleOpTask ρ) (hb : 0 < t._bsize) (hle : t._rl ≤ t._ru)
    (hnw : t._ru + t._bsize ≤ UINT64) (k : Nat) (hk : k < t.ncalls) :
    BatchBounds t (t.batch (t._rl + k * t._bsize)) := by
  have hlt := (lt_ncalls_iff t hb hle k).1 hk
  have hr2 := batch_r2_noWrap t hnw _ hlt
  have hr := batch_r t (t._rl + k * t._bsize)
  unfold BatchBounds
  rw [hr2, hr]
  refine ⟨by omega, by omega, by omega, by omega, ?_, ?_, ?_, ?_, ?_, ?_⟩
  · simp [SingleOpTask.batch, Nat.mod_eq_of_lt (show t._rl + k * t._bsize + t._bsize < UINT64 by omega)]
  · simp [SingleOpTask.batch, Nat.mod_eq_of_lt (show t._rl + k * t._bsize + t._bsize < UINT64 by omega)]
  · intro h1
    simp [SingleOpTask.batch, h1, Nat.mod_eq_of_lt (show t._rl + k * t._bsize + t._bsize < UINT64 by omega)]
  · intro h; constructor <;> omega
  · intro h; constructor <;> omega
  · intro _ h; constructor <;> omega

theorem orderedTiling_noWrap (t : SingleOpTask ρ) (hb : 0 < t._bsize) (hle : t._rl ≤ t._ru)
    (hnw : t._ru + t._bsize ≤ UINT64) :
    OrderedTiling t._rl t._ru
      ((List.range t.ncalls).map (fun j => t.batch (t._rl + j * t._bsize))) := by
  have key : ∀ k, k < t.ncalls →
      (t.batch (t._rl + k * t._bsize)).r = t._rl + k * t._bsize ∧
      (t.batch (t._rl + k * t._bsize)).r2 = min (t._rl + (k + 1) * t._bsize) t._ru ∧
      t._rl + k * t._bsize < t._ru := by
    intro k hk
    have hlt := (lt_ncalls_iff t hb hle k).1 hk
    refine ⟨rfl, ?_, hlt⟩
    rw [batch_r2_noWrap t hnw _ hlt, Nat.succ_mul]
    congr 1
    omega
  refine ⟨?_, ?_, ?_, ?_⟩
  · intro c hc
    rw [List.head?_eq_getElem?] at hc
    obtain ⟨hk, rfl⟩ := getElem?_idealCalls t 0 c hc
    simp [batch_r]
  · intro k c d hc hd
    obtain ⟨hk, rfl⟩ := getElem?_idealCalls t k c hc
    obtain ⟨hk1, rfl⟩ := getElem?_idealCalls t (k + 1) d hd
    obtain ⟨h1, h2, h3⟩ := key k hk
    obtain ⟨h4, _, h6⟩ := key (k + 1) hk1
    rw [h1, h2, h4]
    rw [Nat.succ_mul] at h6 ⊢
    constructor <;> omega
  · intro c hc
    rw [List.getLast?_eq_getElem?] at hc
    simp only [List.length_map, List.length_range] at hc
    obtain ⟨hk, rfl⟩ := getElem?_idealCalls t _ c hc
    obtain ⟨_, h2, _⟩ := key _ hk
    rw [h2]
    have hn : ¬ t._rl + (t.ncalls - 1 + 1) * t._bsize < t._ru := by
      intro h
      have := (lt_ncalls_iff t hb hle (t.ncalls - 1 + 1)).2 h
      omega
    omega
  · intro i h1 h2
    have hdiv : (i - t._rl) / t._bsize * t._bsize ≤ i - t._rl := Nat.div_mul_le_self _ _
    have hdiv2 : i - t._rl < (i - t._rl) / t._bsize * t._bsize + t._bsize :=
      Nat.lt_div_mul_add hb
    have hq : (i - t._rl) / t._bsize < t.ncalls :=
      (lt_ncalls_iff t hb hle _).2 (by omega)
    refine ⟨(i - t._rl) / t._bsize, ⟨_, getElem?_idealCalls_of_lt t _ hq, ?_, ?_⟩, ?_⟩
    · rw [batch_r]; omega
    · rw [(key _ hq).2.1, Nat.succ_mul]; omega
    · rintro k ⟨c, hc, hlo, hhi⟩
      obtain ⟨hk, rfl⟩ := getElem?_idealCalls t k c hc
      rw [batch_r] at hlo
      rw [(key _ hk).2.1, Nat.succ_mul] at hhi
      symm
      apply Nat.div_eq_of_lt_le
      · omega
      · rw [Nat.succ_mul]; omega

/-! ## Memory after the iterations -/

theorem batch_lres (t : SingleOpTask ρ) (r : Nat) :
    (t.batch r).lres = t._res.slice r (t.batch r).r2 := rfl

theorem batch_linput1 (t : SingleOpTask ρ) (r : Nat) :
    (t.batch r).linput1 = t._input1.slice r (t.batch r).r2 := rfl

theorem batch_linput2 (t : SingleOpTask ρ) (r : Nat) :
    (t.batch r).linput2 =
      if t._input2.getNumRows = 1 then t._input2 else t._input2.slice r (t.batch r).r2 := rfl

theorem covers_batch_iff (t : SingleOpTask ρ) (r b j : Nat) :
    (t.batch r).lres.covers b j ↔
      b = t._res.buf ∧ t._res.rowOff + r ≤ j ∧ j < t._res.rowOff + (t.batch r).r2 := by
  rw [batch_lres]
  simp only [DenseMatrix.covers, DenseMatrix.slice]
  constructor
  · rintro ⟨h1, h2, h3⟩; exact ⟨h1, by omega, by omega⟩
  · rintro ⟨h1, h2, h3⟩; exact ⟨h1, by omega, by omega⟩

/-- One call of a row-wise function on the views of a batch: the rows of the batch get their
expected value. -/
theorem call_rows (t : SingleOpTask ρ) (g : ρ → ρ → ρ) (hrow : RowWise g t._func)
    (h : Mem ρ) (r j : Nat) (h1 : t._res.rowOff + r ≤ j)
    (h2 : j < t._res.rowOff + (t.batch r).r2) :
    t._func h (t.batch r).lres (t.batch r).linput1 (t.batch r).linput2 t._res.buf j =
      expectedRow g t h (j - t._res.rowOff) := by
  have hk : j - (t._res.rowOff + r) < (t.batch r).lres.numRows := by
    rw [batch_lres]; simp only [DenseMatrix.slice]; omega
  have key := hrow h (t.batch r).lres (t.batch r).linput1 (t.batch r).linput2 _ hk
  have hj : (t.batch r).lres.rowOff + (j - (t._res.rowOff + r)) = j := by
    rw [batch_lres]; simp only [DenseMatrix.slice]; omega
  have hbuf : (t.batch r).lres.buf = t._res.buf := rfl
  simp only [DenseMatrix.row] at key
  rw [hj, hbuf] at key
  rw [key]
  unfold expectedRow DenseMatrix.row
  have e1 : (t.batch r).linput1.rowOff + (j - (t._res.rowOff + r)) =
      t._input1.rowOff + (j - t._res.rowOff) := by
    rw [batch_linput1]; simp only [DenseMatrix.slice]; omega
  have b1 : (t.batch r).linput1.buf = t._input1.buf := rfl
  rw [e1, b1]
  congr 1
  rw [batch_linput2]
  by_cases hone : t._input2.getNumRows = 1
  · simp [hone]
  · simp only [hone, if_false]
    simp only [DenseMatrix.slice, DenseMatrix.getNumRows]
    congr 1
    split <;> omega

/-- Locations that no batch of the first `k` iterations covers keep their value. -/
theorem iterate_mem_frame (t : SingleOpTask ρ) (hfr : WritesOnlyResult t._func)
    (s : LoopState ρ) : ∀ (k b j : Nat),
    (¬ (b = t._res.buf ∧ ∃ i, i < k ∧ t._res.rowOff + ((t.step)^[i] s).r ≤ j ∧
        j < t._res.rowOff + (t.batch ((t.step)^[i] s).r).r2)) →
    ((t.step)^[k] s).mem b j = s.mem b j := by
  intro k
  induction k with
  | zero => intro b j _; rfl
  | succ k ih =>
    intro b j hn
    rw [iterate_mem_succ, hfr]
    · apply ih
      rintro ⟨hb, i, hi, h1, h2⟩
      exact hn ⟨hb, i, by omega, h1, h2⟩
    · rw [covers_batch_iff]
      rintro ⟨hb, h1, h2⟩
      exact hn ⟨hb, k, Nat.lt_succ_self k, h1, h2⟩

/-- Locations in another buffer than the result keep their value. -/
theorem iterate_mem_other (t : SingleOpTask ρ) (hfr : WritesOnlyResult t._func)
    (s : LoopState ρ) (k b j : Nat) (hb : b ≠ t._res.buf) :
    ((t.step)^[k] s).mem b j = s.mem b j :=
  iterate_mem_frame t hfr s k b j (fun h => hb h.1)

theorem expectedRow_congr (g : ρ → ρ → ρ) (t : SingleOpTask ρ) (h h1 : Mem ρ)
    (e1 : ∀ j, h1 t._input1.buf j = h t._input1.buf j)
    (e2 : ∀ j, h1 t._input2.buf j = h t._input2.buf j) (i : Nat) :
    expectedRow g t h1 i = expectedRow g t h i := by
  unfold expectedRow DenseMatrix.row
  rw [e1, e2]

/-- The rows that some batch of the first `k` iterations covers hold their expected value. -/
theorem iterate_mem_rows (t : SingleOpTask ρ) (g : ρ → ρ → ρ) (hrow : RowWise g t._func)
    (hfr : WritesOnlyResult t._func) (hs1 : t._res.buf ≠ t._input1.buf)
    (hs2 : t._res.buf ≠ t._input2.buf) (s : LoopState ρ) : ∀ (k j : Nat),
    (∃ i, i < k ∧ t._res.rowOff + ((t.step)^[i] s).r ≤ j ∧
        j < t._res.rowOff + (t.batch ((t.step)^[i] s).r).r2) →
    ((t.step)^[k] s).mem t._res.buf j = expectedRow g t s.mem (j - t._res.rowOff) := by
  intro k
  induction k with
  | zero => rintro j ⟨i, hi, _⟩; omega
  | succ k ih =>
    rintro j ⟨i, hi, h1, h2⟩
    rw [iterate_mem_succ]
    by_cases hc : t._res.rowOff + ((t.step)^[k] s).r ≤ j ∧
        j < t._res.rowOff + (t.batch ((t.step)^[k] s).r).r2
    · rw [call_rows t g hrow _ _ j hc.1 hc.2]
      apply expectedRow_congr
      · intro j1; exact iterate_mem_other t hfr s k _ j1 (Ne.symm hs1)
      · intro j1; exact iterate_mem_other t hfr s k _ j1 (Ne.symm hs2)
    · rw [hfr]
      · apply ih
        refine ⟨i, ?_, h1, h2⟩
        rcases Nat.lt_succ_iff_lt_or_eq.1 hi with h | h
        · exact h
        · subst h; exact absurd ⟨h1, h2⟩ hc
      · rw [covers_batch_iff]
        rintro ⟨_, h3, h4⟩
        exact hc ⟨h3, h4⟩

/-! ## Coverage on exit, families of tasks -/

theorem batch_r2_le (t : SingleOpTask ρ) (r : Nat) : (t.batch r).r2 ≤ t._ru :=
  Nat.min_le_right _ _

theorem batch_r2_eq_min_next (t : SingleOpTask ρ) (s : LoopState ρ) (k : Nat) :
    (t.batch ((t.step)^[k] s).r).r2 = min ((t.step)^[k + 1] s).r t._ru := by
  rw [iterate_r_succ]
  rfl

/-- A loop variable that starts at or below row `i` and ends above it passes over `i`
in one of its steps. -/
theorem exists_step_over (t : SingleOpTask ρ) (s : LoopState ρ) (i : Nat) : ∀ n : Nat,
    s.r ≤ i → i < ((t.step)^[n] s).r →
    ∃ k, k < n ∧ ((t.step)^[k] s).r ≤ i ∧ i < ((t.step)^[k + 1] s).r := by
  intro n
  induction n with
  | zero => intro h1 h2; simp at h2; omega
  | succ n ih =>
    intro h1 h2
    by_cases h : i < ((t.step)^[n] s).r
    · obtain ⟨k, hk, h3, h4⟩ := ih h1 h
      exact ⟨k, by omega, h3, h4⟩
    · exact ⟨n, Nat.lt_succ_self n, by omega, h2⟩

/-- When the loop is left after `n` iterations, every row of `[s.r, _ru)` lies in one of the
`n` batches. -/
theorem covered_of_exit (t : SingleOpTask ρ) (s : LoopState ρ) (n i : Nat)
    (hex : ¬ ((t.step)^[n] s).r < t._ru) (h1 : s.r ≤ i) (h2 : i < t._ru) :
    ∃ k, k < n ∧ ((t.step)^[k] s).r ≤ i ∧ i < (t.batch ((t.step)^[k] s).r).r2 := by
  obtain ⟨k, hk, h3, h4⟩ := exists_step_over t s i n h1 (by omega)
  refine ⟨k, hk, h3, ?_⟩
  rw [batch_r2_eq_min_next]
  exact lt_min h4 h2

/-- What one returning call of `execute` with a row-wise function does to memory. -/
theorem execute_rows (t : SingleOpTask ρ) (g : ρ → ρ → ρ) (hrow : RowWise g t._func)
    (hfr : WritesOnlyResult t._func) (hs1 : t._res.buf ≠ t._input1.buf)
    (hs2 : t._res.buf ≠ t._input2.buf) (fuel : Nat) (st st1 : ProgState ρ)
    (hex : t.execute fuel st = some st1) :
    (∀ b j, b ≠ t._res.buf → st1.mem b j = st.mem b j) ∧
    (∀ j, st1.mem t._res.buf j = st.mem t._res.buf j ∨
      st1.mem t._res.buf j = expectedRow g t st.mem (j - t._res.rowOff)) ∧
    (∀ i, t._rl ≤ i → i < t._ru → t._res.row st1.mem i = expectedRow g t st.mem i) := by
  unfold SingleOpTask.execute at hex
  cases hrun : t.run fuel { r := t._rl, mem := st.mem, calls := st.calls } with
  | none => rw [hrun] at hex; simp at hex
  | some s1 =>
    rw [hrun] at hex
    simp only [Option.map_some', Option.some.injEq] at hex
    obtain ⟨n, -, hs1eq, -, hexit⟩ := run_some_iterate t fuel _ s1 hrun
    have hmem : st1.mem = ((t.step)^[n] { r := t._rl, mem := st.mem, calls := st.calls }).mem := by
      rw [← hex, hs1eq]
    rw [hmem]
    refine ⟨?_, ?_, ?_⟩
    · intro b j hb
      exact iterate_mem_other t hfr _ n b j hb
    · intro j
      by_cases hc : ∃ i, i < n ∧
          t._res.rowOff + ((t.step)^[i] { r := t._rl, mem := st.mem, calls := st.calls }).r ≤ j ∧
          j < t._res.rowOff +
            (t.batch ((t.step)^[i] { r := t._rl, mem := st.mem, calls := st.calls }).r).r2
      · right
        exact iterate_mem_rows t g hrow hfr hs1 hs2 _ n j hc
      · left
        exact iterate_mem_frame t hfr _ n _ j (fun h => hc h.2)
    · intro i h1 h2
      rw [hs1eq] at hexit
      obtain ⟨k, hk, h3, h4⟩ := covered_of_exit t _ n i hexit h1 h2
      have := iterate_mem_rows t g hrow hfr hs1 hs2
        { r := t._rl, mem := st.mem, calls := st.calls } n (t._res.rowOff + i)
        ⟨k, hk, by omega, by omega⟩
      unfold DenseMatrix.row
      rw [this]
      simp

theorem ncalls_le (t : SingleOpTask ρ) (hb : 0 < t._bsize) : t.ncalls ≤ t._ru - t._rl := by
  unfold SingleOpTask.ncalls
  apply Nat.le_of_lt_succ
  rw [Nat.div_lt_iff_lt_mul hb, Nat.succ_mul]
  have : t._ru - t._rl ≤ (t._ru - t._rl) * t._bsize := Nat.le_mul_of_pos_right _ hb
  omega

/-- The tasks of a family: the row ranges `ranges` of the task `t`. -/
theorem executeAll_rows (t : SingleOpTask ρ) (g : ρ → ρ → ρ) (hrow : RowWise g t._func)
    (hfr : WritesOnlyResult t._func) (hs1 : t._res.buf ≠ t._input1.buf)
    (hs2 : t._res.buf ≠ t._input2.buf) (fuel : Nat) : ∀ (ranges : List (Nat × Nat))
    (st st1 : ProgState ρ),
    executeAll (ranges.map (fun p => t.withRange p.1 p.2)) fuel st = some st1 →
    (∀ b j, b ≠ t._res.buf → st1.mem b j = st.mem b j) ∧
    (∀ j, st1.mem t._res.buf j = st.mem t._res.buf j ∨
      st1.mem t._res.buf j = expectedRow g t st.mem (j - t._res.rowOff)) ∧
    (∀ i, (∃ p, p ∈ ranges ∧ p.1 ≤ i ∧ i < p.2) →
      t._res.row st1.mem i = expectedRow g t st.mem i) := by
  intro ranges
  induction ranges with
  | nil =>
    intro st st1 h
    simp only [List.map_nil, executeAll, Option.some.injEq] at h
    subst h
    exact ⟨fun _ _ _ => rfl, fun _ => Or.inl rfl, fun i ⟨p, hp, _⟩ => by simp at hp⟩
  | cons p ps ih =>
    intro st st2 h
    simp only [List.map_cons, executeAll] at h
    cases hex : (t.withRange p.1 p.2).execute fuel st with
    | none => rw [hex] at h; simp at h
    | some st1 =>
      rw [hex] at h
      simp only at h
      obtain ⟨a1, a2, a3⟩ := execute_rows (t.withRange p.1 p.2) g hrow hfr hs1 hs2 fuel st st1 hex
      obtain ⟨b1, b2, b3⟩ := ih st1 st2 h
      have hE : ∀ i, expectedRow g t st1.mem i = expectedRow g t st.mem i := by
        intro i
        apply expectedRow_congr
        · intro j; exact a1 _ j (Ne.symm hs1)
        · intro j; exact a1 _ j (Ne.symm hs2)
      have a2' : ∀ j, st1.mem t._res.buf j = st.mem t._res.buf j ∨
          st1.mem t._res.buf j = expectedRow g t st.mem (j - t._res.rowOff) := a2
      have a3' : ∀ i, p.1 ≤ i → i < p.2 → t._res.row st1.mem i = expectedRow g t st.mem i := a3
      refine ⟨?_, ?_, ?_⟩
      · intro b j hb
        rw [b1 b j hb]
        exact a1 b j hb
      · intro j
        rcases b2 j with h2 | h2
        · rcases a2' j with h1 | h1
          · left; rw [h2, h1]
          · right; rw [h2, h1]
        · right; rw [h2, hE]
      · rintro i ⟨q, hq, hq1, hq2⟩
        rcases List.mem_cons.1 hq with rfl | hq
        · have h1 := a3' i hq1 hq2
          unfold DenseMatrix.row at h1 ⊢
          rcases b2 (t._res.rowOff + i) with h2 | h2
          · rw [h2, h1]
          · rw [h2, hE]; simp
        · rw [b3 i ⟨q, hq, hq1, hq2⟩, hE]

/-- A family whose tasks do not wrap around returns. -/
theorem executeAll_returns (t : SingleOpTask ρ) (hb : 0 < t._bsize) (fuel : Nat) :
    ∀ (ranges : List (Nat × Nat)),
    (∀ p, p ∈ ranges → p.1 ≤ p.2 ∧ p.2 - p.1 ≤ fuel ∧ p.2 + t._bsize ≤ UINT64) →
    ∀ st : ProgState ρ,
    ∃ st1, executeAll (ranges.map (fun p => t.withRange p.1 p.2)) fuel st = some st1 := by
  intro ranges
  induction ranges with
  | nil => intro _ st; exact ⟨st, rfl⟩
  | cons p ps ih =>
    intro hp st
    obtain ⟨h1, h2, h3⟩ := hp p (List.mem_cons_self _ _)
    have hn : (t.withRange p.1 p.2).ncalls ≤ fuel :=
      Nat.le_trans (ncalls_le (t.withRange p.1 p.2) hb) h2
    have hex := execute_noWrap (t.withRange p.1 p.2) hb h1 h3 st fuel hn
    simp only [List.map_cons, executeAll, hex]
    exact ih (fun q hq => hp q (List.mem_cons_of_mem _ hq)) _

/-! ## The example functions and the cycling task -/

theorem rowWise_rowwiseFunc (g : ρ → ρ → ρ) : RowWise g (rowwiseFunc g) := by
  intro h lres l1 l2 k hk
  simp [rowwiseFunc, DenseMatrix.row, DenseMatrix.covers, hk]

theorem rowWise_overrunFunc : RowWise (fun x y => x + y) overrunFunc := by
  intro h lres l1 l2 k hk
  simp [overrunFunc, DenseMatrix.row, DenseMatrix.covers, hk]

theorem writesOnlyResult_rowwiseFunc (g : ρ → ρ → ρ) : WritesOnlyResult (rowwiseFunc g) := by
  intro h lres l1 l2 b j hc
  simp only [rowwiseFunc, hc, if_false]

/-- The loop of `cycleTask` alternates between `r = 0` and `r = 2 ^ 63`. -/
theorem cycleTask_run_none : ∀ (fuel : Nat) (s : LoopState Int),
    (s.r = 0 ∨ s.r = 2 ^ 63) → cycleTask.run fuel s = none := by
  intro fuel
  induction fuel with
  | zero =>
    intro s hs
    have h0 : s.r < cycleTask._ru := by
      rcases hs with h | h <;> rw [h] <;> decide
    simp [SingleOpTask.run, h0]
  | succ f ih =>
    intro s hs
    have h0 : s.r < cycleTask._ru := by
      rcases hs with h | h <;> rw [h] <;> decide
    have hstep : cycleTask.run (f + 1) s = cycleTask.run f (cycleTask.step s) := by
      simp [SingleOpTask.run, h0]
    rw [hstep]
    apply ih
    show (s.r + cycleTask._bsize) % UINT64 = 0 ∨ (s.r + cycleTask._bsize) % UINT64 = 2 ^ 63
    rcases hs with h | h
    · right; rw [h]; decide
    · left; rw [h]; decide

theorem cycleTask_execute_none (fuel : Nat) (st : ProgState Int) :
    cycleTask.execute fuel st = none := by
  unfold SingleOpTask.execute
  rw [cycleTask_run_none fuel _ (Or.inl rfl)]
  rfl

/-! ## The output combiner -/

theorem mergeAll_some {m n : Nat} : ∀ (locals : List (OutMat m n)) (res : OutMat m n),
    CompiledPipelineTask.mergeAll (some res) locals = some (res + locals.sum) := by
  intro locals
  induction locals with
  | nil => intro res; simp [CompiledPipelineTask.mergeAll]
  | cons x xs ih =>
    intro res
    have h : CompiledPipelineTask.mergeAll (some res) (x :: xs) = CompiledPipelineTask.mergeAll (some (res + x)) xs := rfl
    rw [h, ih, List.sum_cons, add_assoc]

theorem mergeAll_none_cons {m n : Nat} (x : OutMat m n) (xs : List (OutMat m n)) :
    CompiledPipelineTask.mergeAll none (x :: xs) = some ((x :: xs).sum) := by
  have h : CompiledPipelineTask.mergeAll none (x :: xs) = CompiledPipelineTask.mergeAll (some (0 + x)) xs := rfl
  rw [h, mergeAll_some, zero_add, List.sum_cons]

theorem mergeAll_of_ne_nil {m n : Nat} (slot : Option (OutMat m n))
    (locals : List (OutMat m n)) (hne : locals ≠ []) :
    CompiledPipelineTask.mergeAll slot locals = some (slot.getD 0 + locals.sum) := by
  cases slot with
  | some res => simp [mergeAll_some]
  | none =>
    cases locals with
    | nil => exact absurd rfl hne
    | cons x xs => simp [mergeAll_none_cons]

theorem mergeAll_perm {m n : Nat} (slot : Option (OutMat m n))
    (l1 l2 : List (OutMat m n)) (hp : l1.Perm l2) : CompiledPipelineTask.mergeAll slot l2 = CompiledPipelineTask.mergeAll slot l1 := by
  by_cases h1 : l1 = []
  · subst h1
    rw [List.Perm.nil_eq hp]
  · have h2 : l2 ≠ [] := by
      intro h
      subst h
      exact h1 (List.Perm.eq_nil hp)
    rw [mergeAll_of_ne_nil slot l1 h1, mergeAll_of_ne_nil slot l2 h2, hp.sum_eq]

theorem rowAdditive_self {m n : Nat} (func : Nat → Nat → OutMat m n) (hadd : RowAdditive func)
    (a : Nat) : func a a = 0 := by
  have h := hadd a a a (Nat.le_refl a) (Nat.le_refl a)
  exact self_eq_add_right.1 h

theorem batches_of_not_lt (bsize ru : Nat) (fuel r : Nat) (h : ¬ r < ru) :
    CompiledPipelineTask.batches bsize ru fuel r = [] := by
  cases fuel <;> simp [CompiledPipelineTask.batches, h]

theorem batches_sum {m n : Nat} (func : Nat → Nat → OutMat m n) (hadd : RowAdditive func)
    (bsize ru : Nat) (hb : 0 < bsize) : ∀ (fuel r : Nat), r ≤ ru → ru - r ≤ fuel →
    ((CompiledPipelineTask.batches bsize ru fuel r).map (fun b => func b.1 b.2)).sum = func r ru := by
  intro fuel
  induction fuel with
  | zero =>
    intro r h1 h2
    have : r = ru := by omega
    subst this
    simp [CompiledPipelineTask.batches, rowAdditive_self func hadd]
  | succ f ih =>
    intro r h1 h2
    by_cases hlt : r < ru
    · simp only [CompiledPipelineTask.batches, hlt, if_true, List.map_cons, List.sum_cons]
      by_cases hfit : r + bsize ≤ ru
      · rw [ih (r + bsize) hfit (by omega), Nat.min_eq_left hfit]
        exact (hadd r (r + bsize) ru (by omega) hfit).symm
      · rw [batches_of_not_lt bsize ru f (r + bsize) (by omega),
          Nat.min_eq_right (by omega)]
        simp
    · have : r = ru := by omega
      subst this
      simp [CompiledPipelineTask.batches, rowAdditive_self func hadd]

theorem execute_rowAdditive {m n : Nat} (func : Nat → Nat → OutMat m n)
    (hadd : RowAdditive func) (rl ru bsize : Nat) (hle : rl ≤ ru) (hb : 0 < bsize)
    (slot : Option (OutMat m n)) :
    CompiledPipelineTask.execute func rl ru bsize slot =
      if rl < ru then CompiledPipelineTask.accumulateOutputs slot (func rl ru) else slot := by
  unfold CompiledPipelineTask.execute
  by_cases hlt : rl < ru
  · have hne : (CompiledPipelineTask.batches bsize ru (ru - rl) rl).map (fun b => func b.1 b.2) ≠ [] := by
      obtain ⟨f, hf⟩ : ∃ f, ru - rl = f + 1 := ⟨ru - rl - 1, by omega⟩
      rw [hf]
      simp [CompiledPipelineTask.batches, hlt]
    rw [mergeAll_of_ne_nil slot _ hne, batches_sum func hadd bsize ru hb _ rl hle (Nat.le_refl _)]
    simp only [hlt, if_true]
    cases slot <;> simp [CompiledPipelineTask.accumulateOutputs]
  · have : ru - rl = 0 := by omega
    rw [this]
    simp [CompiledPipelineTask.batches, CompiledPipelineTask.mergeAll, hlt]

/-! ## Shared facts about the claims' examples -/

theorem wrapTask_calls (st : ProgState Int) (h : wrapTask.execute 6 ⟨exMem, []⟩ = some st) :
    st.calls.map (fun c => (c.r, c.r2)) = [(5, 4), (4, 3), (3, 2), (2, 1), (1, 0), (0, 10)] := by
  have h2 : (wrapTask.execute 6 ⟨exMem, []⟩).map (fun st => st.calls.map (fun c => (c.r, c.r2))) =
      some [(5, 4), (4, 3), (3, 2), (2, 1), (1, 0), (0, 10)] := by decide
  rw [h] at h2
  simpa using h2

theorem getElem?_of_map_pairs (cs : List Call) (ps : List (Nat × Nat))
    (h : cs.map (fun c => (c.r, c.r2)) = ps) (k : Nat) (p : Nat × Nat) (hp : ps[k]? = some p) :
    ∃ c : Call, cs[k]? = some c ∧ c.r = p.1 ∧ c.r2 = p.2 := by
  rw [← h, List.getElem?_map] at hp
  cases hc : cs[k]? with
  | none => rw [hc] at hp; simp at hp
  | some c =>
    rw [hc] at hp
    simp only [Option.map_some', Option.some.injEq] at hp
    exact ⟨c, rfl, by rw [← hp], by rw [← hp]⟩

/-- The frame of a run without wrap-around: the batches stay inside `[_rl, _ru)`. -/
theorem iterate_mem_frame_noWrap (t : SingleOpTask ρ) (hle : t._rl ≤ t._ru) (hb : 0 < t._bsize)
    (hnw : t._ru + t._bsize ≤ UINT64) (hfr : WritesOnlyResult t._func) (m : Mem ρ)
    (cs : List Call) (b j : Nat)
    (hout : ¬ (b = t._res.buf ∧ t._res.rowOff + t._rl ≤ j ∧ j < t._res.rowOff + t._ru)) :
    ((t.step)^[t.ncalls] { r := t._rl, mem := m, calls := cs }).mem b j = m b j := by
  apply iterate_mem_frame t hfr
  rintro ⟨hbuf, i, hi, h1, h2⟩
  rw [iterate_r_of_le_ncalls t hb hle hnw m cs i (by omega)] at h1 h2
  have := batch_r2_le t (t._rl + i * t._bsize)
  exact hout ⟨hbuf, by omega, by omega⟩

theorem singleBatch_eq_batch (t : SingleOpTask ρ) (hle : t._rl ≤ t._ru) (hru : t._ru < UINT64)
    (h : Mem ρ) :
    t.singleBatch h =
      (t.withBsize (t._ru - t._rl))._func h ((t.withBsize (t._ru - t._rl)).batch t._rl).lres
        ((t.withBsize (t._ru - t._rl)).batch t._rl).linput1
        ((t.withBsize (t._ru - t._rl)).batch t._rl).linput2 := by
  have e : min ((t._rl + (t._ru - t._rl)) % UINT64) t._ru = t._ru := by
    rw [Nat.add_sub_cancel' hle, Nat.mod_eq_of_lt hru, Nat.min_self]
  simp only [SingleOpTask.singleBatch, SingleOpTask.batch, SingleOpTask.withBsize, e]

/-- Without wrap-around the loop leaves the memory that the single batch `[_rl, _ru)`
leaves. -/
theorem execute_eq_singleBatch (t : SingleOpTask ρ) (g : ρ → ρ → ρ) (hle : t._rl ≤ t._ru)
    (hb : 0 < t._bsize) (hnw : t._ru + t._bsize ≤ UINT64) (hrow : RowWise g t._func)
    (hfr : WritesOnlyResult t._func) (hs1 : t._res.buf ≠ t._input1.buf)
    (hs2 : t._res.buf ≠ t._input2.buf) (st : ProgState ρ) (fuel : Nat)
    (hfuel : t.ncalls ≤ fuel) :
    ∃ st1, t.execute fuel st = some st1 ∧ st1.mem = t.singleBatch st.mem := by
  refine ⟨_, execute_noWrap t hb hle hnw st fuel hfuel, ?_⟩
  show ((t.step)^[t.ncalls] { r := t._rl, mem := st.mem, calls := st.calls }).mem = _
  funext b j
  have hru : t._ru < UINT64 := by omega
  rw [singleBatch_eq_batch t hle hru]
  have hr2 : ((t.withBsize (t._ru - t._rl)).batch t._rl).r2 = t._ru := by
    show min ((t._rl + (t._ru - t._rl)) % UINT64) t._ru = t._ru
    rw [Nat.add_sub_cancel' hle, Nat.mod_eq_of_lt hru, Nat.min_self]
  by_cases hin : b = t._res.buf ∧ t._res.rowOff + t._rl ≤ j ∧ j < t._res.rowOff + t._ru
  · obtain ⟨rfl, h1, h2⟩ := hin
    have hexit : ¬ ((t.step)^[t.ncalls] { r := t._rl, mem := st.mem, calls := st.calls }).r
        < t._ru := by
      rw [iterate_r_of_le_ncalls t hb hle hnw _ _ _ (Nat.le_refl _)]
      intro h
      exact absurd ((lt_ncalls_iff t hb hle _).2 h) (Nat.lt_irrefl _)
    obtain ⟨k, hk, h3, h4⟩ := covered_of_exit t _ t.ncalls (j - t._res.rowOff) hexit
      (show t._rl ≤ j - t._res.rowOff by omega) (by omega)
    rw [iterate_mem_rows t g hrow hfr hs1 hs2 _ t.ncalls j ⟨k, hk, by omega, by omega⟩]
    have := call_rows (t.withBsize (t._ru - t._rl)) g hrow st.mem t._rl j h1
      (by rw [hr2]; exact h2)
    exact this.symm
  · rw [iterate_mem_frame_noWrap t hle hb hnw hfr st.mem st.calls b j hin]
    symm
    apply hfr
    rw [covers_batch_iff, hr2]
    exact hin

/-! ## C1: the batches tile the row range -/

/-- C1, counterexample.  Rows `[5, 10)` with batch size `2 ^ 64 - 1` satisfy `rl ≤ ru` and
`bsize > 0`, but `r + _bsize` wraps around: `execute` returns after the six batches
`[5,4) [4,3) [3,2) [2,1) [1,0) [0,10)`, whose starts decrease, so they are no ordered tiling
of `[5, 10)`. -/
theorem c1_tiling_fails_on_wrap :
    wrapTask._rl ≤ wrapTask._ru ∧ 0 < wrapTask._bsize ∧ wrapTask._bsize < UINT64 ∧
    (wrapTask.execute 6 ⟨exMem, []⟩).map (fun st => st.calls.map (fun c => (c.r, c.r2))) =
      some [(5, 4), (4, 3), (3, 2), (2, 1), (1, 0), (0, 10)] ∧
    ∀ st, wrapTask.execute 6 ⟨exMem, []⟩ = some st →
      ¬ OrderedTiling wrapTask._rl wrapTask._ru st.calls := by
  refine ⟨by decide, by decide, by decide, by decide, ?_⟩
  intro st hst hT
  have hcs := wrapTask_calls st hst
  obtain ⟨c, hc, hc1, -⟩ := getElem?_of_map_pairs st.calls _ hcs 0 (5, 4) rfl
  obtain ⟨d, hd, hd1, -⟩ := getElem?_of_map_pairs st.calls _ hcs 1 (4, 3) rfl
  have := (hT.2.1 0 c d hc hd).2
  rw [hc1, hd1] at this
  omega

/-- C1, as the code has it.  For every row range `rl ≤ ru` and batch size `bsize > 0` with
`ru + bsize ≤ 2 ^ 64` (so that `r + _bsize` does not wrap around), `execute` returns and
the batches `[r, r2)` it has processed are an ordered tiling of `[rl, ru)`: the first starts
at `rl`, each next one starts where the one before ended, the starts increase strictly, the
last ends at `ru`, and every row of `[rl, ru)` lies in exactly one batch. -/
theorem c1_tiling_noWrap (t : SingleOpTask ρ) (hle : t._rl ≤ t._ru) (hb : 0 < t._bsize)
    (hnw : t._ru + t._bsize ≤ UINT64) (m : Mem ρ) (fuel : Nat) (hfuel : t.ncalls ≤ fuel) :
    ∃ st, t.execute fuel ⟨m, []⟩ = some st ∧ OrderedTiling t._rl t._ru st.calls := by
  refine ⟨_, execute_noWrap t hb hle hnw ⟨m, []⟩ fuel hfuel, ?_⟩
  simpa using orderedTiling_noWrap t hb hle hnw

/-- C1, witness: rows `[0, 100)` with batch size `10`. -/
theorem c1_tiling_noWrap_witness :
    ∃ st, scenarioD.execute 10 ⟨exMem, []⟩ = some st ∧
      OrderedTiling scenarioD._rl scenarioD._ru st.calls :=
  c1_tiling_noWrap scenarioD (by decide) (by decide) (by decide) exMem 10 (by decide)

/-! ## C2: place semantics of a family of tasks -/

/-- C2, counterexample.  Two families with the row ranges `[0, 5)` and `[5, 10)` and batch
size `5`, whose functions write each row of their result view from the same-index rows of
their input views.
(a) Result and first input overlap (rows `1 .. 10` and `0 .. 9` of one buffer) and the
function is `output = input1`: the first task overwrites row `5` of the input before the
second task reads it, so rows `0 .. 9` of the result end as `0 1 2 3 4 4 6 7 8 9`; row `5`
is not the output for row `5` of the inputs as they were (`5`), and row `1` is not the
output for row `1` of the inputs as they are in the end (`0`).
(b) Result and inputs are stored apart, and the function also overwrites the row just
before its result view: the second task leaves `-1` in row `4`, where the output for
row `4` of the inputs is `44`. -/
theorem c2_place_fails_on_overlap_or_overrun :
    (0 < aliasTask._bsize ∧ RowWise (fun x _ => x) aliasTask._func ∧
      WritesOnlyResult aliasTask._func ∧
      (∀ i, i < 10 →
        [((0 : Nat), (5 : Nat)), (5, 10)].countP (fun p => decide (p.1 ≤ i ∧ i < p.2)) = 1) ∧
      (List.range 10).map (aliasTask._input1.row exMem) = [0, 1, 2, 3, 4, 5, 6, 7, 8, 9] ∧
      (executeAll ([((0 : Nat), (5 : Nat)), (5, 10)].map
          (fun p => aliasTask.withRange p.1 p.2)) 10 ⟨exMem, []⟩).map
        (fun st => ((List.range 10).map (aliasTask._res.row st.mem),
          (List.range 10).map (aliasTask._input1.row st.mem))) =
        some ([0, 1, 2, 3, 4, 4, 6, 7, 8, 9], [0, 0, 1, 2, 3, 4, 4, 6, 7, 8]) ∧
      (executeAll ([((0 : Nat), (5 : Nat)), (5, 10)].map
          (fun p => aliasTask.withRange p.1 p.2)) 10 ⟨exMem, []⟩).map
        (fun st => (decide (aliasTask._res.row st.mem 5 =
            expectedRow (fun x _ => x) aliasTask exMem 5),
          decide (aliasTask._res.row st.mem 1 =
            expectedRow (fun x _ => x) aliasTask st.mem 1))) = some (false, false)) ∧
    (0 < overrunTask._bsize ∧ RowWise (fun x y => x + y) overrunTask._func ∧
      overrunTask._res.buf ≠ overrunTask._input1.buf ∧
      overrunTask._res.buf ≠ overrunTask._input2.buf ∧
      expectedRow (fun x y => x + y) overrunTask exMem 4 = 44 ∧
      (executeAll ([((0 : Nat), (5 : Nat)), (5, 10)].map
          (fun p => overrunTask.withRange p.1 p.2)) 10 ⟨exMem, []⟩).map
        (fun st => (overrunTask._res.row st.mem 4,
          expectedRow (fun x y => x + y) overrunTask st.mem 4)) = some (-1, 44)) := by
  refine ⟨⟨by decide, rowWise_rowwiseFunc _,
    writesOnlyResult_rowwiseFunc (fun (x : Int) (_ : Int) => x), by decide,
    by decide, by decide, by decide⟩,
    by decide, rowWise_overrunFunc, by decide, by decide, by decide, by decide⟩

/-- C2, as the code has it.  A family of tasks (same function, matrices and batch size
`bsize > 0`, one task per row range) whose row ranges cover `[0, totalRows)` exactly once,
with a function that writes each row of its result view from the same-index rows of its
input views (the only row of a single-row second input) and writes nothing else, the result
sharing no storage with the inputs.  Whenever all tasks have returned, row `i` of the
shared result is the function's output for row `i` of the inputs, for every
`i < totalRows`; and all tasks do return when the row ranges lie in `[0, totalRows)` and
`totalRows + bsize ≤ 2 ^ 64` (no wrap-around of `r + _bsize`). -/
theorem c2_place_semantics (t : SingleOpTask ρ) (g : ρ → ρ → ρ) (ranges : List (Nat × Nat))
    (totalRows : Nat) (hb : 0 < t._bsize) (hrow : RowWise g t._func)
    (hfr : WritesOnlyResult t._func) (hs1 : t._res.buf ≠ t._input1.buf)
    (hs2 : t._res.buf ≠ t._input2.buf)
    (hcov : ∀ i, i < totalRows →
      ranges.countP (fun p => decide (p.1 ≤ i ∧ i < p.2)) = 1)
    (st : ProgState ρ) :
    (∀ fuel st1, executeAll (ranges.map (fun p => t.withRange p.1 p.2)) fuel st = some st1 →
      ∀ i, i < totalRows → t._res.row st1.mem i = expectedRow g t st.mem i) ∧
    ((∀ p, p ∈ ranges → p.1 ≤ p.2 ∧ p.2 ≤ totalRows) → totalRows + t._bsize ≤ UINT64 →
      ∀ fuel, totalRows ≤ fuel →
      ∃ st1, executeAll (ranges.map (fun p => t.withRange p.1 p.2)) fuel st = some st1 ∧
        ∀ i, i < totalRows → t._res.row st1.mem i = expectedRow g t st.mem i) := by
  have part : ∀ fuel st1,
      executeAll (ranges.map (fun p => t.withRange p.1 p.2)) fuel st = some st1 →
      ∀ i, i < totalRows → t._res.row st1.mem i = expectedRow g t st.mem i := by
    intro fuel st1 h i hi
    have hpos : 0 < ranges.countP (fun p => decide (p.1 ≤ i ∧ i < p.2)) := by
      rw [hcov i hi]; exact Nat.one_pos
    obtain ⟨p, hp, hdec⟩ := List.countP_pos_iff.1 hpos
    have hp2 : p.1 ≤ i ∧ i < p.2 := of_decide_eq_true hdec
    exact (executeAll_rows t g hrow hfr hs1 hs2 fuel ranges st st1 h).2.2 i
      ⟨p, hp, hp2.1, hp2.2⟩
  refine ⟨part, ?_⟩
  intro hin hnw fuel hfuel
  obtain ⟨st1, h1⟩ := executeAll_returns t hb fuel ranges
    (fun p hp => ⟨(hin p hp).1, by have := (hin p hp).2; omega, by
      have := (hin p hp).2; omega⟩) st
  exact ⟨st1, h1, part fuel st1 h1⟩

/-- C2, witness (scenario A): the tasks of rows `[0, 5)` and `[5, 10)` with batch size `5`
and `output = input1 + input2` return, and row `i` of the result is the sum of row `i` of
the inputs for every `i < 10`. -/
theorem c2_place_semantics_witness :
    ∃ st1, executeAll ([((0 : Nat), (5 : Nat)), (5, 10)].map
        (fun p => scenarioA.withRange p.1 p.2)) 10 ⟨exMem, []⟩ = some st1 ∧
      ∀ i, i < 10 → scenarioA._res.row st1.mem i = exMem 1 i + exMem 2 i := by
  obtain ⟨st1, h1, h2⟩ := (c2_place_semantics scenarioA (fun x y => x + y) [(0, 5), (5, 10)] 10
    (by decide) (rowWise_rowwiseFunc _) (writesOnlyResult_rowwiseFunc _) (by decide)
    (by decide) (by decide) ⟨exMem, []⟩).2 (by decide) (by decide) 10 (Nat.le_refl 10)
  refine ⟨st1, h1, ?_⟩
  intro i hi
  rw [h2 i hi]
  simp [expectedRow, DenseMatrix.row, scenarioA, SingleOpTask.new, DenseMatrix.getNumRows]

/-! ## C3: broadcasting -/

/-- C3, counterexample.  In scenario D with the `1×4` matrix as the FIRST input, `execute`
makes its ten function calls, and in each of them the first input is the row-range slice
`[r, r2)` of the single-row matrix (`_input1->slice(r, r2)`, line 85), never the matrix
itself. -/
theorem c3_first_input_is_sliced :
    scenarioD1._input1.getNumRows = 1 ∧
    (scenarioD1.execute 10 ⟨exMem, []⟩).map (fun st => st.calls.map Call.linput1) =
      some ((List.range 10).map (fun k => scenarioD1._input1.slice (10 * k) (10 * k + 10))) ∧
    (scenarioD1.execute 10 ⟨exMem, []⟩).map
      (fun st => decide (∀ c ∈ st.calls, c.linput1 ≠ scenarioD1._input1)) = some true := by
  refine ⟨by decide, by decide, by decide⟩

/-- A call in the trace after `n` iterations is the batch at one of the loop variables. -/
theorem mem_iterate_calls (t : SingleOpTask ρ) (m : Mem ρ) (n : Nat) (c : Call)
    (hc : c ∈ ((t.step)^[n] { r := t._rl, mem := m, calls := [] }).calls) :
    ∃ r, c = t.batch r := by
  rw [iterate_calls] at hc
  simp only [List.nil_append, List.mem_map] at hc
  obtain ⟨j, -, hj⟩ := hc
  exact ⟨_, hj.symm⟩

/-- C3, as the code has it.  In `SingleOpTask::execute` only the SECOND input is broadcast:
in every batch, a second input with exactly one row is passed to the function unmodified
(and is sliced to `[r, r2)` otherwise), whereas the first input and the result are always
passed as the row-range slice `[r, r2)`.  This holds for every call after any number of
loop iterations, hence for every call of a run that returns.  In the partition builder of
`CompiledPipelineTask` every input with exactly one row is passed unmodified, whatever its
split policy. -/
theorem c3_broadcast_second_input (t : SingleOpTask ρ) (m : Mem ρ) :
    (∀ n c, c ∈ ((t.step)^[n] { r := t._rl, mem := m, calls := [] }).calls →
      (t._input2.getNumRows = 1 → c.linput2 = t._input2) ∧
      (t._input2.getNumRows ≠ 1 → c.linput2 = t._input2.slice c.r c.r2) ∧
      c.linput1 = t._input1.slice c.r c.r2 ∧ c.lres = t._res.slice c.r c.r2) ∧
    (∀ fuel st, t.execute fuel ⟨m, []⟩ = some st → ∀ c, c ∈ st.calls →
      (t._input2.getNumRows = 1 → c.linput2 = t._input2) ∧
      (t._input2.getNumRows ≠ 1 → c.linput2 = t._input2.slice c.r c.r2) ∧
      c.linput1 = t._input1.slice c.r c.r2 ∧ c.lres = t._res.slice c.r c.r2) ∧
    (∀ (inputs : List DenseMatrix) (splits : List VectorSplit) (rowStart rowEnd k : Nat)
      (inp : DenseMatrix) (sp : VectorSplit), inputs[k]? = some inp → splits[k]? = some sp →
      inp.getNumRows = 1 →
      (CompiledPipelineTask.createFuncInputs inputs splits rowStart rowEnd)[k]? = some inp) := by
  have key : ∀ n c, c ∈ ((t.step)^[n] { r := t._rl, mem := m, calls := [] }).calls →
      (t._input2.getNumRows = 1 → c.linput2 = t._input2) ∧
      (t._input2.getNumRows ≠ 1 → c.linput2 = t._input2.slice c.r c.r2) ∧
      c.linput1 = t._input1.slice c.r c.r2 ∧ c.lres = t._res.slice c.r c.r2 := by
    intro n c hc
    obtain ⟨r, rfl⟩ := mem_iterate_calls t m n c hc
    refine ⟨?_, ?_, rfl, rfl⟩
    · intro h; rw [batch_linput2, if_pos h]
    · intro h; rw [batch_linput2, if_neg h]; rfl
  refine ⟨key, ?_, ?_⟩
  · intro fuel st hst c hc
    unfold SingleOpTask.execute at hst
    cases hrun : t.run fuel { r := t._rl, mem := m, calls := [] } with
    | none => rw [hrun] at hst; simp at hst
    | some s1 =>
      rw [hrun] at hst
      simp only [Option.map_some', Option.some.injEq] at hst
      obtain ⟨n, -, hs1, -, -⟩ := run_some_iterate t fuel _ s1 hrun
      apply key n c
      rw [← hs1]
      rw [← hst] at hc
      exact hc
  · intro inputs splits rowStart rowEnd k inp sp hin hsp hone
    unfold CompiledPipelineTask.createFuncInputs
    rw [List.getElem?_zipWith, hin, hsp]
    simp [hone]

/-- C3, witness (scenario D): a `1×4` second input, rows `[0, 100)`, batch size `10`; the
call of the fourth batch, `[30, 40)`, is in the trace of the ten iterations and receives
the unsliced `1×4` matrix. -/
theorem c3_broadcast_second_input_witness :
    (scenarioD.batch 30).linput2 = ⟨2, 0, 1, 4⟩ ∧
    (scenarioD.batch 30).linput1 = scenarioD._input1.slice 30 40 :=
  have h := (c3_broadcast_second_input scenarioD exMem).1 10 (scenarioD.batch 30) (by decide)
  ⟨h.1 (by decide), h.2.2.1⟩

/-! ## C4: termination and number of invocations -/

/-- C4, counterexample.  With 64-bit values `rl = 0 ≤ ru = 2 ^ 64 - 1` and
`bsize = 2 ^ 63 > 0` the loop never terminates (`r` goes `0, 2 ^ 63, 0, ...`); and with
`rl = 5`, `ru = 10`, `bsize = 2 ^ 64 - 1` it terminates after `6` invocations, not after
`ceil ((ru - rl) / bsize) = 1`. -/
theorem c4_wrap_breaks_termination :
    (cycleTask._rl ≤ cycleTask._ru ∧ 0 < cycleTask._bsize ∧ cycleTask._ru < UINT64 ∧
      cycleTask._bsize < UINT64 ∧
      ¬ ∃ fuel st, cycleTask.execute fuel ⟨exMem, []⟩ = some st) ∧
    (wrapTask._rl ≤ wrapTask._ru ∧ 0 < wrapTask._bsize ∧ wrapTask._ru < UINT64 ∧
      wrapTask._bsize < UINT64 ∧
      (wrapTask.execute 6 ⟨exMem, []⟩).map (fun st => st.calls.length) = some 6 ∧
      wrapTask.ncalls = 1) := by
  refine ⟨⟨by decide, by decide, by decide, by decide, ?_⟩,
    by decide, by decide, by decide, by decide, by decide, by decide⟩
  rintro ⟨fuel, st, h⟩
  rw [cycleTask_execute_none] at h
  exact absurd h (by simp)

/-- C4, as the code has it.  For all `rl ≤ ru` and `bsize > 0` with `ru + bsize ≤ 2 ^ 64`
(so that the `uint64_t` sum `r + _bsize` does not wrap around), the loop of `execute`
terminates: with fuel for `ceil ((ru - rl) / bsize)` iterations it returns, having invoked
the function exactly that many times; with less fuel the loop is still running. -/
theorem c4_terminates_noWrap (t : SingleOpTask ρ) (hle : t._rl ≤ t._ru) (hb : 0 < t._bsize)
    (hnw : t._ru + t._bsize ≤ UINT64) (st : ProgState ρ) :
    (∀ fuel, (t._ru - t._rl + t._bsize - 1) / t._bsize ≤ fuel →
      ∃ st1, t.execute fuel st = some st1 ∧
        st1.calls.length = st.calls.length + (t._ru - t._rl + t._bsize - 1) / t._bsize) ∧
    (∀ fuel, fuel < (t._ru - t._rl + t._bsize - 1) / t._bsize →
      t.execute fuel st = none) := by
  constructor
  · intro fuel hfuel
    refine ⟨_, execute_noWrap t hb hle hnw st fuel hfuel, ?_⟩
    simp [SingleOpTask.ncalls]
  · intro fuel hfuel
    have hfuel2 : fuel < t.ncalls := hfuel
    unfold SingleOpTask.execute
    rw [run_none_of_forall t fuel _ (fun k hk => by
      rw [iterate_r_of_le_ncalls t hb hle hnw st.mem st.calls k (by omega)]
      exact (lt_ncalls_iff t hb hle k).1 (by omega))]
    rfl

/-- C4, witness: ten invocations for rows `[0, 100)` with batch size `10`, none for the
empty range `[7, 7)`. -/
theorem c4_terminates_noWrap_witness :
    (∃ st1, scenarioD.execute 10 ⟨exMem, []⟩ = some st1 ∧
      st1.calls.length = 0 + (100 - 0 + 10 - 1) / 10) ∧
    (∃ st1, (scenarioD.withRange 7 7).execute 0 ⟨exMem, []⟩ = some st1 ∧
      st1.calls.length = 0 + (7 - 7 + 10 - 1) / 10) :=
  ⟨(c4_terminates_noWrap scenarioD (by decide) (by decide) (by decide) ⟨exMem, []⟩).1 10
      (by decide),
    (c4_terminates_noWrap (scenarioD.withRange 7 7) (by decide) (by decide) (by decide)
      ⟨exMem, []⟩).1 0 (by decide)⟩

/-! ## C5: bounds of the batches and of the slice requests -/

/-- C5, counterexample.  For rows `[5, 10)` and batch size `2 ^ 64 - 1` the first slice
request of `execute` is `slice(5, 4)`: `r < r2` fails, although `rl ≤ ru`, `bsize > 0` and
all matrices have `ru = 10` rows. -/
theorem c5_bounds_fail_on_wrap :
    wrapTask._rl ≤ wrapTask._ru ∧ 0 < wrapTask._bsize ∧
    wrapTask._ru ≤ wrapTask._res.numRows ∧ wrapTask._ru ≤ wrapTask._input1.numRows ∧
    wrapTask._ru ≤ wrapTask._input2.numRows ∧
    (wrapTask.execute 6 ⟨exMem, []⟩).map
      (fun st => st.calls.head?.map (fun c => (c.r, c.r2, c.lres))) =
      some (some (5, 4, wrapTask._res.slice 5 4)) ∧
    ∀ st, wrapTask.execute 6 ⟨exMem, []⟩ = some st →
      ∃ c, c ∈ st.calls ∧ ¬ BatchBounds wrapTask c := by
  refine ⟨by decide, by decide, by decide, by decide, by decide, by decide, ?_⟩
  intro st hst
  have hcs := wrapTask_calls st hst
  obtain ⟨c, hc, hc1, hc2⟩ := getElem?_of_map_pairs st.calls _ hcs 0 (5, 4) rfl
  refine ⟨c, List.getElem?_mem hc, ?_⟩
  intro hB
  have := hB.2.1
  rw [hc1, hc2] at this
  omega

/-- C5, as the code has it.  For every `rl ≤ ru` and `bsize > 0` with `ru + bsize ≤ 2 ^ 64`
(no wrap-around of `r + _bsize`), `execute` returns and every slice request `slice(r, r2)`
it has issued satisfies `rl ≤ r < r2 ≤ ru` and `r2 - r ≤ min bsize (ru - rl)`; hence, when
the result and the sliced inputs have at least `ru` rows, no batch is empty and every
request lies inside its matrix. -/
theorem c5_bounds_noWrap (t : SingleOpTask ρ) (hle : t._rl ≤ t._ru) (hb : 0 < t._bsize)
    (hnw : t._ru + t._bsize ≤ UINT64) (m : Mem ρ) (fuel : Nat) (hfuel : t.ncalls ≤ fuel) :
    ∃ st, t.execute fuel ⟨m, []⟩ = some st ∧ ∀ c, c ∈ st.calls → BatchBounds t c := by
  refine ⟨_, execute_noWrap t hb hle hnw ⟨m, []⟩ fuel hfuel, ?_⟩
  intro c hc
  simp only [List.nil_append, List.mem_map, List.mem_range] at hc
  obtain ⟨k, hk, rfl⟩ := hc
  exact batchBounds_noWrap t hb hle hnw k hk

/-- C5, witness: rows `[0, 100)` of hundred-row matrices with batch size `10`. -/
theorem c5_bounds_noWrap_witness :
    ∃ st, scenarioD.execute 10 ⟨exMem, []⟩ = some st ∧
      ∀ c, c ∈ st.calls → BatchBounds scenarioD c :=
  c5_bounds_noWrap scenarioD (by decide) (by decide) (by decide) exMem 10 (by decide)

/-! ## C7: accumulate semantics (modelled from the spec) -/

/-- C7, counterexample.  A compiled function whose local output is `1` in every cell for
every batch: over rows `[0, 4)` the shared result is `1` per cell with batch size `4` (one
batch) and `2` per cell with batch size `2` (two batches), so it is not the same for every
batch size. -/
theorem c7_batch_size_matters :
    (CompiledPipelineTask.execute onesFunc 0 4 4 none).map (fun M => M 0 0) = some 1 ∧
    (CompiledPipelineTask.execute onesFunc 0 4 2 none).map (fun M => M 0 0) = some 2 ∧
    CompiledPipelineTask.execute onesFunc 0 4 4 none ≠
      CompiledPipelineTask.execute onesFunc 0 4 2 none := by
  have h1 : (CompiledPipelineTask.execute onesFunc 0 4 4 none).map (fun M => M 0 0) = some 1 := by
    decide
  have h2 : (CompiledPipelineTask.execute onesFunc 0 4 2 none).map (fun M => M 0 0) = some 2 := by
    decide
  refine ⟨h1, h2, ?_⟩
  intro h
  rw [h, h2] at h1
  exact absurd h1 (by decide)

/-- C7, as the spec has it.  For the accumulate policy over integer cells: the shared result
after merging a non-empty list of local batch outputs is the initial content (zero for a
null slot) plus the cell-wise sum of the local outputs; it is the same for every order of
merging; and, for a compiled function whose local output on a batch is the sum of what the
rows of the batch contribute (`RowAdditive`), it is the same for every two batch sizes
`b1, b2 > 0` used to split `[rl, ru)`, namely the result of the single batch `[rl, ru)`. -/
theorem c7_accumulate_semantics {m n : Nat} (slot : Option (OutMat m n))
    (locals locals2 : List (OutMat m n)) (hperm : locals.Perm locals2)
    (func : Nat → Nat → OutMat m n) (hadd : RowAdditive func) (rl ru b1 b2 : Nat)
    (hle : rl ≤ ru) (hb1 : 0 < b1) (hb2 : 0 < b2) :
    (locals ≠ [] →
      CompiledPipelineTask.mergeAll slot locals = some (slot.getD 0 + locals.sum)) ∧
    CompiledPipelineTask.mergeAll slot locals2 = CompiledPipelineTask.mergeAll slot locals ∧
    CompiledPipelineTask.execute func rl ru b1 slot =
      CompiledPipelineTask.execute func rl ru b2 slot ∧
    (rl < ru → CompiledPipelineTask.execute func rl ru b1 slot =
      CompiledPipelineTask.accumulateOutputs slot (func rl ru)) := by
  refine ⟨mergeAll_of_ne_nil slot locals, mergeAll_perm slot locals locals2 hperm, ?_, ?_⟩
  · rw [execute_rowAdditive func hadd rl ru b1 hle hb1,
      execute_rowAdditive func hadd rl ru b2 hle hb2]
  · intro hlt
    rw [execute_rowAdditive func hadd rl ru b1 hle hb1, if_pos hlt]

theorem rowAdditive_countFunc : RowAdditive countFunc := by
  intro a b c _ _
  funext i j
  simp [countFunc]

/-- C7, witness (scenario B): two tasks over rows `[0, 4)`, each contributing `1` per cell,
give `2` in every cell; local outputs of `1` and of `2` per cell give the same result in
either order; and rows that contribute `1` per cell each give the same result with batch
sizes `4` and `2`. -/
theorem c7_accumulate_semantics_witness :
    CompiledPipelineTask.mergeAll none [onesFunc 0 4, onesFunc 0 4] = some (fun _ _ => 2) ∧
    CompiledPipelineTask.mergeAll none [countFunc 0 2, onesFunc 0 4] =
      CompiledPipelineTask.mergeAll none [onesFunc 0 4, countFunc 0 2] ∧
    CompiledPipelineTask.execute countFunc 0 4 4 none =
      CompiledPipelineTask.execute countFunc 0 4 2 none := by
  have h := c7_accumulate_semantics none [onesFunc 0 4, countFunc 0 2]
    [countFunc 0 2, onesFunc 0 4] (List.Perm.swap _ _ _) countFunc rowAdditive_countFunc
    0 4 4 2 (by decide) (by decide) (by decide)
  have h2 := c7_accumulate_semantics none [onesFunc 0 4, onesFunc 0 4]
    [onesFunc 0 4, onesFunc 0 4] (List.Perm.refl _) countFunc rowAdditive_countFunc
    0 4 4 2 (by decide) (by decide) (by decide)
  refine ⟨?_, h.2.1, h.2.2.1⟩
  rw [h2.1 (by simp)]
  apply congrArg some
  funext i j
  simp [onesFunc]

/-! ## C8: the shutdown sentinel -/

/-- C8.  `EOFTask::execute` is a no-op: for every program state (memory and trace of
function invocations) and whatever the fuel, the virtual call on the sentinel returns, and
returns the state it was given: no function is invoked, no matrix is modified. -/
theorem c8_eof_is_noop (fuel : Nat) (st : ProgState ρ) :
    (Task.eof : Task ρ).execute fuel st = some st ∧ EOFTask.execute st = st ∧
    ∀ st1, (Task.eof : Task ρ).execute fuel st = some st1 →
      st1.mem = st.mem ∧ st1.calls = st.calls := by
  refine ⟨rfl, rfl, ?_⟩
  intro st1 h
  have : st = st1 := Option.some.inj h
  subst this
  exact ⟨rfl, rfl⟩

/-! ## C9: batch-size independence -/

/-- C9, counterexample.  Rows `[0, 10)`, batch sizes far below `2 ^ 64`, functions that
compute each row of their result view from the same-index rows of their input views.
(a) Result and first input overlap (rows `1 .. 10` and `0 .. 9` of one buffer, which holds
`j` in row `j`) and the function is `output = input1`: with batch size `1` every batch
reads the row that the batch before has written, and the result ends as ten times `0`;
with batch size `10` it ends as `0 1 .. 9`.
(b) Result and inputs are stored apart, and the function also overwrites the row just
before its result view: with batch size `10` row `4` of the result ends as `44`, with
batch size `5` the second batch leaves `-1` there. -/
theorem c9_independence_fails_on_overlap_or_overrun :
    (aliasTask._rl ≤ aliasTask._ru ∧ aliasTask._ru + 1 < UINT64 ∧
      aliasTask._ru + 10 < UINT64 ∧ RowWise (fun x _ => x) aliasTask._func ∧
      WritesOnlyResult aliasTask._func ∧
      ((aliasTask.withBsize 1).execute 10 ⟨exMem, []⟩).map
        (fun st => (List.range 10).map (aliasTask._res.row st.mem)) =
        some [0, 0, 0, 0, 0, 0, 0, 0, 0, 0] ∧
      ((aliasTask.withBsize 10).execute 10 ⟨exMem, []⟩).map
        (fun st => (List.range 10).map (aliasTask._res.row st.mem)) =
        some [0, 1, 2, 3, 4, 5, 6, 7, 8, 9]) ∧
    (overrunTask._rl ≤ overrunTask._ru ∧ overrunTask._ru + 10 < UINT64 ∧
      overrunTask._ru + 5 < UINT64 ∧ RowWise (fun x y => x + y) overrunTask._func ∧
      overrunTask._res.buf ≠ overrunTask._input1.buf ∧
      overrunTask._res.buf ≠ overrunTask._input2.buf ∧
      ((overrunTask.withBsize 10).execute 10 ⟨exMem, []⟩).map
        (fun st => overrunTask._res.row st.mem 4) = some 44 ∧
      ((overrunTask.withBsize 5).execute 10 ⟨exMem, []⟩).map
        (fun st => overrunTask._res.row st.mem 4) = some (-1)) := by
  refine ⟨⟨by decide, by decide, by decide, rowWise_rowwiseFunc _,
    writesOnlyResult_rowwiseFunc (fun (x : Int) (_ : Int) => x), by decide, by decide⟩,
    by decide, by decide, by decide, rowWise_overrunFunc, by decide, by decide, by decide,
    by decide⟩

/-- C9, as the code has it.  For every `rl ≤ ru`, every two batch sizes `b1, b2 > 0` with
`ru + b1` and `ru + b2` below `2 ^ 64`, every initial memory, every result matrix that
shares no storage with the inputs, and every function that writes each row of its result
view from the same-index rows of its input views (from the only row of a single-row second
input) and writes nothing else: `execute` with batch size `b1` and with batch size `b2`
both return, with the same final memory, which is the memory that one call of the function
on the single batch `[rl, ru)` leaves. -/
theorem c9_batch_size_independent (t : SingleOpTask ρ) (g : ρ → ρ → ρ) (b1 b2 : Nat)
    (hle : t._rl ≤ t._ru) (hb1 : 0 < b1) (hb2 : 0 < b2) (h1 : t._ru + b1 < UINT64)
    (h2 : t._ru + b2 < UINT64) (hrow : RowWise g t._func) (hfr : WritesOnlyResult t._func)
    (hs1 : t._res.buf ≠ t._input1.buf) (hs2 : t._res.buf ≠ t._input2.buf)
    (st : ProgState ρ) (fuel : Nat) (hf1 : (t.withBsize b1).ncalls ≤ fuel)
    (hf2 : (t.withBsize b2).ncalls ≤ fuel) :
    ∃ st1 st2, (t.withBsize b1).execute fuel st = some st1 ∧
      (t.withBsize b2).execute fuel st = some st2 ∧ st1.mem = st2.mem ∧
      st1.mem = t.singleBatch st.mem ∧
      ∀ i, t._res.row st1.mem i = t._res.row st2.mem i := by
  obtain ⟨st1, e1, m1⟩ := execute_eq_singleBatch (t.withBsize b1) g hle hb1
    (Nat.le_of_lt h1) hrow hfr hs1 hs2 st fuel hf1
  obtain ⟨st2, e2, m2⟩ := execute_eq_singleBatch (t.withBsize b2) g hle hb2
    (Nat.le_of_lt h2) hrow hfr hs1 hs2 st fuel hf2
  have m1' : st1.mem = t.singleBatch st.mem := m1
  have m2' : st2.mem = t.singleBatch st.mem := m2
  exact ⟨st1, st2, e1, e2, by rw [m1', m2'], m1', fun i => by rw [m1', m2']⟩

/-- C9, witness: rows `[0, 10)` of scenario A with batch sizes `5` and `3`. -/
theorem c9_batch_size_independent_witness :
    ∃ st1 st2, (scenarioA.withBsize 5).execute 10 ⟨exMem, []⟩ = some st1 ∧
      (scenarioA.withBsize 3).execute 10 ⟨exMem, []⟩ = some st2 ∧ st1.mem = st2.mem ∧
      st1.mem = scenarioA.singleBatch exMem ∧
      ∀ i, scenarioA._res.row st1.mem i = scenarioA._res.row st2.mem i :=
  c9_batch_size_independent scenarioA (fun x y => x + y) 5 3 (by decide) (by decide)
    (by decide) (by decide) (by decide) (rowWise_rowwiseFunc _)
    (writesOnlyResult_rowwiseFunc _) (by decide) (by decide) ⟨exMem, []⟩ 10 (by decide)
    (by decide)

/-! ## C10: batch size zero -/

theorem iterate_r_of_bsize_zero (t : SingleOpTask ρ) (hz : t._bsize = 0) (s : LoopState ρ)
    (hr : s.r < UINT64) : ∀ n : Nat, ((t.step)^[n] s).r = s.r := by
  intro n
  induction n with
  | zero => rfl
  | succ n ih => rw [iterate_r_succ, ih, hz, Nat.add_zero, Nat.mod_eq_of_lt hr]

theorem execute_of_ge (t : SingleOpTask ρ) (h : t._ru ≤ t._rl) (fuel : Nat)
    (st : ProgState ρ) : t.execute fuel st = some st := by
  unfold SingleOpTask.execute
  have h0 : ¬ t._rl < t._ru := by omega
  cases fuel <;> simp [SingleOpTask.run, h0]

/-- C10.  `bsize > 0` is not enforced and is necessary.  The constructor stores `bsize = 0`
as it is, and the default constructor sets `rl = ru = bsize = 0`.  For a task with
`bsize = 0` and `rl < ru` (`rl` a 64-bit value), after any number `n` of iterations the
loop variable is still `rl`, the loop condition `r < ru` still holds and the batch
requested is the empty `[r, r)`; so `execute` does not return, whatever the fuel.  For
`ru ≤ rl`, and so for the default-constructed task, the loop body is never entered:
`execute` returns at once with the state unchanged (no invocation, no write). -/
theorem c10_zero_bsize (t : SingleOpTask ρ) (hrl : t._rl < UINT64) (st : ProgState ρ)
    (func : Func ρ) (res input1 input2 : DenseMatrix) (rl ru : Nat) :
    (SingleOpTask.new func res input1 input2 rl ru 0)._bsize = 0 ∧
    ((SingleOpTask.default func res input1 input2)._rl = 0 ∧
      (SingleOpTask.default func res input1 input2)._ru = 0 ∧
      (SingleOpTask.default func res input1 input2)._bsize = 0) ∧
    (t._bsize = 0 → t._rl < t._ru →
      (∀ n, ((t.step)^[n] { r := t._rl, mem := st.mem, calls := st.calls }).r = t._rl ∧
        ((t.step)^[n] { r := t._rl, mem := st.mem, calls := st.calls }).r < t._ru ∧
        (t.batch ((t.step)^[n] { r := t._rl, mem := st.mem, calls := st.calls }).r).r2 =
          ((t.step)^[n] { r := t._rl, mem := st.mem, calls := st.calls }).r ∧
        (t.batch ((t.step)^[n] { r := t._rl, mem := st.mem, calls := st.calls }).r).lres.numRows
          = 0) ∧
      ∀ fuel, t.execute fuel st = none) ∧
    (t._ru ≤ t._rl → ∀ fuel, t.execute fuel st = some st) ∧
    (∀ fuel, (SingleOpTask.default func res input1 input2).execute fuel st = some st) := by
  refine ⟨rfl, ⟨rfl, rfl, rfl⟩, ?_, fun h fuel => execute_of_ge t h fuel st,
    fun fuel => execute_of_ge _ (Nat.le_refl 0) fuel st⟩
  intro hz hlt
  have hr : ∀ n, ((t.step)^[n] { r := t._rl, mem := st.mem, calls := st.calls }).r = t._rl :=
    iterate_r_of_bsize_zero t hz _ hrl
  have hr2 : (t.batch t._rl).r2 = t._rl := by
    show min ((t._rl + t._bsize) % UINT64) t._ru = t._rl
    rw [hz, Nat.add_zero, Nat.mod_eq_of_lt hrl]
    exact Nat.min_eq_left (Nat.le_of_lt hlt)
  constructor
  · intro n
    rw [hr n]
    refine ⟨rfl, hlt, hr2, ?_⟩
    rw [batch_lres, hr2]
    simp [DenseMatrix.slice]
  · intro fuel
    unfold SingleOpTask.execute
    rw [run_none_of_forall t fuel _ (fun k _ => by rw [hr k]; exact hlt)]
    rfl

/-- C10, witness: rows `[0, 3)` with batch size `0`. -/
theorem c10_zero_bsize_witness :
    (∀ n, (((scenarioA.withRange 0 3).withBsize 0).step^[n]
        { r := 0, mem := exMem, calls := [] }).r = 0) ∧
    (∀ fuel, ((scenarioA.withRange 0 3).withBsize 0).execute fuel ⟨exMem, []⟩ = none) ∧
    (∀ fuel, ((scenarioA.withRange 3 3).withBsize 0).execute fuel ⟨exMem, []⟩ =
      some ⟨exMem, []⟩) :=
  ⟨fun n => (((c10_zero_bsize ((scenarioA.withRange 0 3).withBsize 0) (by decide) ⟨exMem, []⟩
      addFunc ⟨0, 0, 10, 1⟩ ⟨1, 0, 10, 1⟩ ⟨2, 0, 10, 1⟩ 0 3).2.2.1 rfl (by decide)).1 n).1,
    (c10_zero_bsize ((scenarioA.withRange 0 3).withBsize 0) (by decide) ⟨exMem, []⟩
      addFunc ⟨0, 0, 10, 1⟩ ⟨1, 0, 10, 1⟩ ⟨2, 0, 10, 1⟩ 0 3).2.2.1 rfl (by decide) |>.2,
    (c10_zero_bsize ((scenarioA.withRange 3 3).withBsize 0) (by decide) ⟨exMem, []⟩
      addFunc ⟨0, 0, 10, 1⟩ ⟨1, 0, 10, 1⟩ ⟨2, 0, 10, 1⟩ 0 3).2.2.2.1 (by decide)⟩

end Daphne
